import Mathlib

/-
Verification of the dynamic-tools-discovery router.

Shallow embedding of the Python sources under src/ (router/tool_cache.py,
router/health.py, router/history.py, router/metrics.py, router/registry.py,
router/core.py) together with theorems settling the specification claims.

Modelling conventions:
  - Python OrderedDict key order is modelled as a List String, oldest
    (least-recently-used) first, with unique membership.
  - Python dict keyed by string is modelled as an association list
    with unique keys, lookup by first match.
  - Monotonic clock readings and similarity scores are modelled as Rat.
  - A raising Python call is modelled as an Except Unit value that is
    Except.error () on the raise.
-/

set_option maxHeartbeats 1000000

namespace ToolCache

/-- Cache state: the key sequence of the Python OrderedDict, oldest first. -/
abbrev CacheState := List String

/-- Translation of ToolCache.add (src/router/tool_cache.py).  If the url is
present it is moved to the most-recently-used end and nothing is evicted.
Otherwise, when the cache is at capacity, popitem evicts the oldest entry;
popitem on an empty OrderedDict raises KeyError, modelled as Except.error.
Returns the new state and the evicted url, if any. -/
def add (maxSize : Nat) (url : String) (st : CacheState) :
    Except Unit (CacheState × Option String) :=
  if url ∈ st then
    Except.ok (st.erase url ++ [url], none)
  else if st.length ≥ maxSize then
    match st with
    | [] => Except.error ()
    | oldest :: rest => Except.ok (rest ++ [url], some oldest)
  else
    Except.ok (st ++ [url], none)

/-- Translation of ToolCache.touch: move to most-recently-used end when
present, otherwise leave the cache unchanged. -/
def touch (url : String) (st : CacheState) : CacheState :=
  if url ∈ st then st.erase url ++ [url] else st

/-- Translation of ToolCache.evict: remove the url if present (pop with a
default never raises). -/
def evict (url : String) (st : CacheState) : CacheState :=
  st.erase url

/-- Translation of ToolCache.get_urls: the cached urls, oldest first. -/
def get_urls (st : CacheState) : List String := st

/-- Translation of ToolCache.preload: add each url in the given order.  A
raise from add propagates. -/
def preload (maxSize : Nat) (urls : List String) (st : CacheState) :
    Except Unit CacheState :=
  match urls with
  | [] => Except.ok st
  | u :: us => do
      let p ← add maxSize u st
      preload maxSize us p.1

/-- One public mutating operation on the connection cache. -/
inductive Op where
  | add (url : String)
  | touch (url : String)
  | evict (url : String)
  | preload (urls : List String)

/-- Run a single operation, propagating a raise from add. -/
def execOp (maxSize : Nat) (st : CacheState) : Op → Except Unit CacheState
  | Op.add u => (add maxSize u st).map Prod.fst
  | Op.touch u => Except.ok (touch u st)
  | Op.evict u => Except.ok (evict u st)
  | Op.preload us => preload maxSize us st

/-- Run a sequence of operations from a starting state. -/
def execOps (maxSize : Nat) : List Op → CacheState → Except Unit CacheState
  | [], st => Except.ok st
  | op :: ops, st => do
      let st1 ← execOp maxSize st op
      execOps maxSize ops st1

/-- Boundedness and uniqueness invariant of the connection cache. -/
def Inv (maxSize : Nat) (st : CacheState) : Prop :=
  st.length ≤ maxSize ∧ st.Nodup

theorem inv_empty (maxSize : Nat) : Inv maxSize [] := ⟨by simp, by simp⟩

theorem nodupSnoc {l : List String} {u : String} (h : l.Nodup) (hu : u ∉ l) :
    (l ++ [u]).Nodup := by
  refine List.Nodup.append h (List.nodup_singleton u) ?_
  intro a ha hb
  rw [List.mem_singleton] at hb
  subst hb
  exact hu ha

theorem moveToEnd_nodup {l : List String} {u : String} (h : l.Nodup) :
    (l.erase u ++ [u]).Nodup :=
  nodupSnoc (h.erase u) h.not_mem_erase

theorem moveToEnd_length {l : List String} {u : String} (hu : u ∈ l) :
    (l.erase u ++ [u]).length = l.length := by
  have := List.length_erase_add_one hu
  simp only [List.length_append, List.length_singleton]
  omega

theorem add_inv {maxSize : Nat} {url : String} {st st1 : CacheState}
    {ev : Option String} (hinv : Inv maxSize st)
    (h : add maxSize url st = Except.ok (st1, ev)) : Inv maxSize st1 := by
  obtain ⟨hlen, hnd⟩ := hinv
  unfold add at h
  by_cases hmem : url ∈ st
  · rw [if_pos hmem] at h
    injection h with hp
    injection hp with h1 h2
    subst h1
    exact ⟨by rw [moveToEnd_length hmem]; exact hlen, moveToEnd_nodup hnd⟩
  · rw [if_neg hmem] at h
    by_cases hcap : st.length ≥ maxSize
    · rw [if_pos hcap] at h
      cases st with
      | nil => exact absurd h (by simp)
      | cons oldest rest =>
          injection h with hp
          injection hp with h1 h2
          subst h1
          have hlen2 : rest.length + 1 ≤ maxSize := by
            simpa using hlen
          refine ⟨by simp only [List.length_append, List.length_singleton]; omega, ?_⟩
          exact nodupSnoc (List.Nodup.of_cons hnd)
            (fun hc => hmem (List.mem_cons_of_mem _ hc))
    · rw [if_neg hcap] at h
      injection h with hp
      injection hp with h1 h2
      subst h1
      refine ⟨?_, nodupSnoc hnd hmem⟩
      simp only [List.length_append, List.length_singleton]
      omega

theorem touch_inv {maxSize : Nat} {url : String} {st : CacheState}
    (hinv : Inv maxSize st) : Inv maxSize (touch url st) := by
  obtain ⟨hlen, hnd⟩ := hinv
  unfold touch
  by_cases hmem : url ∈ st
  · rw [if_pos hmem]
    exact ⟨by rw [moveToEnd_length hmem]; exact hlen, moveToEnd_nodup hnd⟩
  · rw [if_neg hmem]
    exact ⟨hlen, hnd⟩

theorem evict_inv {maxSize : Nat} {url : String} {st : CacheState}
    (hinv : Inv maxSize st) : Inv maxSize (evict url st) := by
  obtain ⟨hlen, hnd⟩ := hinv
  exact ⟨le_trans (List.Sublist.length_le (List.erase_sublist url st)) hlen,
    hnd.erase url⟩

theorem preload_inv {maxSize : Nat} {urls : List String} {st st1 : CacheState}
    (hinv : Inv maxSize st)
    (h : preload maxSize urls st = Except.ok st1) : Inv maxSize st1 := by
  induction urls generalizing st with
  | nil =>
      unfold preload at h
      injection h with h1
      subst h1
      exact hinv
  | cons u us ih =>
      unfold preload at h
      match hadd : add maxSize u st with
      | Except.error e =>
          rw [hadd] at h
          exact Except.noConfusion h
      | Except.ok p =>
          rw [hadd] at h
          exact ih (add_inv hinv (by rw [hadd])) h

theorem execOp_inv {maxSize : Nat} {st st1 : CacheState} {op : Op}
    (hinv : Inv maxSize st) (h : execOp maxSize st op = Except.ok st1) :
    Inv maxSize st1 := by
  cases op with
  | add u =>
      simp only [execOp] at h
      match hadd : add maxSize u st with
      | Except.error e =>
          rw [hadd] at h
          exact Except.noConfusion h
      | Except.ok p =>
          rw [hadd] at h
          injection h with h1
          subst h1
          exact add_inv hinv (by rw [hadd])
  | touch u =>
      simp only [execOp] at h
      injection h with h1
      subst h1
      exact touch_inv hinv
  | evict u =>
      simp only [execOp] at h
      injection h with h1
      subst h1
      exact evict_inv hinv
  | preload us =>
      simp only [execOp] at h
      exact preload_inv hinv h

theorem execOps_inv {maxSize : Nat} {ops : List Op} {st st1 : CacheState}
    (hinv : Inv maxSize st) (h : execOps maxSize ops st = Except.ok st1) :
    Inv maxSize st1 := by
  induction ops generalizing st with
  | nil =>
      unfold execOps at h
      injection h with h1
      subst h1
      exact hinv
  | cons op ops ih =>
      unfold execOps at h
      match hop : execOp maxSize st op with
      | Except.error e =>
          rw [hop] at h
          exact Except.noConfusion h
      | Except.ok st2 =>
          rw [hop] at h
          exact ih (execOp_inv hinv hop) h

end ToolCache

/-- C7: starting from an empty connection cache of capacity maxSize, any
sequence of add, touch, evict and preload operations that completes normally
leaves at most maxSize stored identifiers, each occurring at most once. -/
theorem C7_cache_bounded_unique (maxSize : Nat) (ops : List ToolCache.Op)
    (st : ToolCache.CacheState)
    (h : ToolCache.execOps maxSize ops [] = Except.ok st) :
    st.length ≤ maxSize ∧ st.Nodup :=
  ToolCache.execOps_inv (ToolCache.inv_empty maxSize) h

/-- Witness for C7 at a concrete operation sequence with capacity 2. -/
theorem C7_cache_bounded_unique_witness :
    (["b", "c"] : List String).length ≤ 2 ∧ (["b", "c"] : List String).Nodup :=
  C7_cache_bounded_unique 2
    [ToolCache.Op.add "a", ToolCache.Op.add "b", ToolCache.Op.add "c"]
    ["b", "c"] (by rfl)

namespace ToolCache

/-- Sequence of add calls, recording the eviction returned by each call. -/
def addSeq (maxSize : Nat) :
    List String → CacheState → Except Unit (CacheState × List (Option String))
  | [], st => Except.ok (st, [])
  | u :: us, st =>
      match add maxSize u st with
      | Except.error e => Except.error e
      | Except.ok (st1, ev) =>
          match addSeq maxSize us st1 with
          | Except.error e => Except.error e
          | Except.ok (st2, evs) => Except.ok (st2, ev :: evs)

theorem addSeq_cons_ok_ok {maxSize : Nat} {u : String} {us : List String}
    {st st1 st2 : CacheState} {ev : Option String} {evs : List (Option String)}
    (h : add maxSize u st = Except.ok (st1, ev))
    (h2 : addSeq maxSize us st1 = Except.ok (st2, evs)) :
    addSeq maxSize (u :: us) st = Except.ok (st2, ev :: evs) := by
  simp only [addSeq, h, h2]

theorem addSeq_append_ok_ok {maxSize : Nat} {as : List String}
    {st st1 st2 : CacheState} {evs evs2 : List (Option String)}
    (bs : List String)
    (h1 : addSeq maxSize as st = Except.ok (st1, evs))
    (h2 : addSeq maxSize bs st1 = Except.ok (st2, evs2)) :
    addSeq maxSize (as ++ bs) st = Except.ok (st2, evs ++ evs2) := by
  induction as generalizing st evs with
  | nil =>
      simp only [addSeq] at h1
      injection h1 with hp
      injection hp with ha hb
      subst ha
      subst hb
      simpa using h2
  | cons a as ih =>
      cases hadd : add maxSize a st with
      | error e =>
          rw [show addSeq maxSize (a :: as) st = Except.error e by
            simp only [addSeq, hadd]] at h1
          exact Except.noConfusion h1
      | ok p =>
          obtain ⟨st0, ev⟩ := p
          cases hseq : addSeq maxSize as st0 with
          | error e =>
              rw [show addSeq maxSize (a :: as) st = Except.error e by
                simp only [addSeq, hadd, hseq]] at h1
              exact Except.noConfusion h1
          | ok q =>
              obtain ⟨st3, evs3⟩ := q
              rw [addSeq_cons_ok_ok hadd hseq] at h1
              injection h1 with hp
              injection hp with ha hb
              subst ha
              subst hb
              rw [List.cons_append]
              exact addSeq_cons_ok_ok hadd (ih hseq)

/-- Adding pairwise-new identifiers to a cache that stays under capacity simply
appends them, with no evictions. -/
theorem addSeq_under_capacity {maxSize : Nat} {us : List String}
    {st : CacheState} (hdisj : ∀ u ∈ us, u ∉ st) (hnd : us.Nodup)
    (hlen : st.length + us.length ≤ maxSize) :
    addSeq maxSize us st = Except.ok (st ++ us, List.replicate us.length none) := by
  induction us generalizing st with
  | nil => simp [addSeq]
  | cons u us ih =>
      have hu : u ∉ st := hdisj u (List.mem_cons_self u us)
      have hcap : ¬ st.length ≥ maxSize := by
        simp only [List.length_cons] at hlen
        omega
      have hadd : add maxSize u st = Except.ok (st ++ [u], none) := by
        unfold add
        rw [if_neg hu, if_neg hcap]
      have hdisj2 : ∀ v ∈ us, v ∉ st ++ [u] := by
        intro v hv
        rw [List.mem_append, List.mem_singleton]
        rintro (hvst | rfl)
        · exact hdisj v (List.mem_cons_of_mem _ hv) hvst
        · exact (List.nodup_cons.1 hnd).1 hv
      have hlen2 : (st ++ [u]).length + us.length ≤ maxSize := by
        simp only [List.length_append, List.length_cons, List.length_nil]
          at hlen ⊢
        omega
      rw [addSeq_cons_ok_ok hadd (ih hdisj2 (List.Nodup.of_cons hnd) hlen2)]
      simp [List.replicate_succ, List.append_assoc]

end ToolCache

/-- C8: on an empty cache of capacity C at least 1, adding C plus 1 pairwise
distinct identifiers returns no eviction for the first C adds, evicts exactly
the first-added identifier on the last add, and leaves C identifiers cached;
and adding an identifier that is already present returns no eviction and moves
it to the most-recently-used (last) position, preserving membership. -/
theorem C8_fill_evicts_oldest (C : Nat) (us : List String) (hC : 1 ≤ C)
    (hnd : us.Nodup) (hlen : us.length = C + 1) :
    (ToolCache.addSeq C us [] =
        Except.ok (us.tail, List.replicate C none ++ [some us.headI])
      ∧ us.tail.length = C)
    ∧ ∀ (st : ToolCache.CacheState) (u : String), st.Nodup → u ∈ st →
        ∃ st1, ToolCache.add C u st = Except.ok (st1, none) ∧
          st1.getLast? = some u ∧ ∀ v, v ∈ st1 ↔ v ∈ st := by
  constructor
  · rcases us.eq_nil_or_concat' with rfl | ⟨front, b, rfl⟩
    · exfalso
      rw [List.length_nil] at hlen
      omega
    · have hfrontlen : front.length = C := by
        simp only [List.length_append, List.length_singleton] at hlen
        omega
      have hbnotin : b ∉ front := by
        have := List.disjoint_of_nodup_append hnd
        intro hb
        exact this hb (List.mem_singleton.2 rfl)
      cases front with
      | nil => simp at hfrontlen; omega
      | cons f0 mid =>
          have hfillnd : (f0 :: mid).Nodup := List.Nodup.of_append_left hnd
          have hfill := @ToolCache.addSeq_under_capacity C (f0 :: mid) []
            (by intro u hu; simp) hfillnd (by simp [hfrontlen])
          have hlast : ToolCache.add C b (f0 :: mid) =
              Except.ok (mid ++ [b], some f0) := by
            unfold ToolCache.add
            rw [if_neg hbnotin, if_pos (by rw [hfrontlen])]
          have hsingle : ToolCache.addSeq C [b] (f0 :: mid) =
              Except.ok (mid ++ [b], [some f0]) := by
            simp only [ToolCache.addSeq, hlast]
          rw [ToolCache.addSeq_append_ok_ok [b] hfill hsingle]
          constructor
          · simp [hfrontlen]
          · simp only [List.cons_append, List.tail_cons, List.length_append,
              List.length_cons, List.length_nil] at hfrontlen ⊢
            omega
  · intro st u hstnd hu
    refine ⟨st.erase u ++ [u], ?_, ?_, ?_⟩
    · unfold ToolCache.add
      rw [if_pos hu]
    · simp
    · intro v
      rw [List.mem_append, List.mem_singleton, hstnd.mem_erase_iff]
      constructor
      · rintro (⟨_, hv⟩ | rfl)
        · exact hv
        · exact hu
      · intro hv
        by_cases hvu : v = u
        · exact Or.inr hvu
        · exact Or.inl ⟨hvu, hv⟩

/-- Witness for C8 with capacity 2 and identifiers a, b, c. -/
theorem C8_fill_evicts_oldest_witness :
    (ToolCache.addSeq 2 ["a", "b", "c"] [] =
        Except.ok (["b", "c"], [none, none, some "a"])
      ∧ (["b", "c"] : List String).length = 2)
    ∧ ∃ st1, ToolCache.add 2 "a" ["a", "b"] = Except.ok (st1, none) ∧
        st1.getLast? = some "a" ∧ ∀ v, v ∈ st1 ↔ v ∈ (["a", "b"] : List String) := by
  have h := C8_fill_evicts_oldest 2 ["a", "b", "c"] (by decide) (by decide) (by decide)
  exact ⟨h.1, h.2 ["a", "b"] "a" (by decide) (by decide)⟩

/-- C10: the add operation of the connection cache never raises when the
configured capacity is at least 1 (for any cache state and identifier), but
with capacity 0 adding an absent identifier reaches popitem on an empty
OrderedDict and raises instead of returning. -/
theorem C10_add_total_iff_capacity_positive :
    (∀ (C : Nat) (st : ToolCache.CacheState) (u : String), 1 ≤ C →
      ∃ r, ToolCache.add C u st = Except.ok r)
    ∧ ToolCache.add 0 "x" [] = Except.error () := by
  constructor
  · intro C st u hC
    unfold ToolCache.add
    by_cases hmem : u ∈ st
    · rw [if_pos hmem]
      exact ⟨_, rfl⟩
    · rw [if_neg hmem]
      by_cases hcap : st.length ≥ C
      · rw [if_pos hcap]
        cases st with
        | nil =>
            exfalso
            simp only [List.length_nil, ge_iff_le, Nat.le_zero] at hcap
            omega
        | cons a l => exact ⟨_, rfl⟩
      · rw [if_neg hcap]
        exact ⟨_, rfl⟩
  · rfl

/-- Witness for C10 with capacity 1 on the empty cache. -/
theorem C10_add_total_iff_capacity_positive_witness :
    ∃ r, ToolCache.add 1 "a" [] = Except.ok r :=
  C10_add_total_iff_capacity_positive.1 1 [] "a" (by decide)

/-- Lookup in an association list with string keys, first match (Python dict
lookup under the unique-keys invariant). -/
def lookupKey {α : Type} (x : String) : List (String × α) → Option α
  | [] => none
  | (k, v) :: rest => if k = x then some v else lookupKey x rest

/-- Remove the entry for a key, first match (Python dict del / pop under the
unique-keys invariant). -/
def removeKey {α : Type} (x : String) : List (String × α) → List (String × α)
  | [] => []
  | (k, v) :: rest => if k = x then rest else (k, v) :: removeKey x rest

theorem lookupKey_none_iff {α : Type} {st : List (String × α)} {x : String} :
    lookupKey x st = none ↔ x ∉ st.map Prod.fst := by
  induction st with
  | nil => simp [lookupKey]
  | cons p rest ih =>
      obtain ⟨k, v⟩ := p
      simp only [lookupKey, List.map_cons, List.mem_cons]
      by_cases hk : k = x
      · subst hk
        simp
      · rw [if_neg hk]
        rw [ih]
        constructor
        · intro h hx
          rcases hx with hx | hx
          · exact hk hx.symm
          · exact h hx
        · intro h hx
          exact h (Or.inr hx)

namespace HealthTracker

/-- Failure map of the health tracker: url to the monotonic timestamp of the
last recorded failure.  Python dict modelled as an association list with
unique keys. -/
abbrev HealthState := List (String × ℚ)

/-- Translation of HealthTracker.mark_unhealthy (src/router/health.py): record
the current monotonic time for the url, overwriting any prior record.  Python
dict assignment keeps the position of an existing key and appends a new one. -/
def mark_unhealthy (now : ℚ) (url : String) (st : HealthState) : HealthState :=
  if (lookupKey url st).isSome then
    st.map (fun p => if p.1 = url then (url, now) else p)
  else
    st ++ [(url, now)]

/-- Translation of HealthTracker.is_healthy: true when no record exists; when
a record exists and the elapsed monotonic time has reached the cooldown, the
record is deleted (lazy expiry) and the result is true; otherwise false.
Returns the result together with the possibly-purged state. -/
def is_healthy (cooldown now : ℚ) (url : String) (st : HealthState) :
    Bool × HealthState :=
  match lookupKey url st with
  | none => (true, st)
  | some t =>
      if now - t ≥ cooldown then (true, removeKey url st)
      else (false, st)

/-- Translation of HealthTracker.filter_healthy: keep the urls whose
is_healthy check succeeds, in order, threading the lazily-purged state. -/
def filter_healthy (cooldown now : ℚ) (urls : List String) (st : HealthState) :
    List String × HealthState :=
  match urls with
  | [] => ([], st)
  | u :: us =>
      let r := is_healthy cooldown now u st
      let rest := filter_healthy cooldown now us r.2
      (if r.1 then u :: rest.1 else rest.1, rest.2)

/-- Translation of HealthTracker.clear: drop any failure record for the url. -/
def clear (url : String) (st : HealthState) : HealthState :=
  removeKey url st

theorem lookupKey_overwrite {α : Type} (t0 : α) (x : String)
    {st : List (String × α)} {t : α} (h : lookupKey x st = some t) :
    lookupKey x (st.map (fun p => if p.1 = x then (x, t0) else p)) = some t0 := by
  induction st with
  | nil => simp [lookupKey] at h
  | cons p rest ih =>
      obtain ⟨k, v⟩ := p
      rw [List.map_cons]
      by_cases hk : k = x
      · subst hk
        rw [show (if (k, v).1 = k then (k, t0) else (k, v)) = (k, t0) from
          if_pos rfl]
        simp [lookupKey]
      · rw [show (if (k, v).1 = x then (x, t0) else (k, v)) = (k, v) from
          if_neg hk]
        rw [lookupKey] at h ⊢
        rw [if_neg hk] at h ⊢
        exact ih h

theorem lookupKey_append_right {α : Type} (t0 : α) (x : String)
    {st : List (String × α)} (h : lookupKey x st = none) :
    lookupKey x (st ++ [(x, t0)]) = some t0 := by
  induction st with
  | nil => simp [lookupKey]
  | cons p rest ih =>
      obtain ⟨k, v⟩ := p
      rw [lookupKey] at h
      by_cases hk : k = x
      · rw [if_pos hk] at h
        exact absurd h (by simp)
      · rw [if_neg hk] at h
        rw [List.cons_append, lookupKey, if_neg hk]
        exact ih h

theorem lookupKey_mark_self (t0 : ℚ) (x : String) (st : HealthState) :
    lookupKey x (mark_unhealthy t0 x st) = some t0 := by
  unfold mark_unhealthy
  cases h : lookupKey x st with
  | none =>
      rw [if_neg (by simp)]
      exact lookupKey_append_right t0 x h
  | some t =>
      rw [if_pos (by simp)]
      exact lookupKey_overwrite t0 x h

theorem keys_map_overwrite {α : Type} (t0 : α) (x : String)
    (st : List (String × α)) :
    (st.map (fun p => if p.1 = x then (x, t0) else p)).map Prod.fst
      = st.map Prod.fst := by
  induction st with
  | nil => simp
  | cons p rest ih =>
      obtain ⟨k, v⟩ := p
      rw [List.map_cons, List.map_cons, List.map_cons]
      rw [ih]
      by_cases hk : k = x
      · subst hk
        rw [show (if (k, v).1 = k then (k, t0) else (k, v)) = (k, t0) from
          if_pos rfl]
      · rw [show (if (k, v).1 = x then (x, t0) else (k, v)) = (k, v) from
          if_neg hk]

theorem keys_mark (t0 : ℚ) (x : String) (st : HealthState)
    (hnd : (st.map Prod.fst).Nodup) :
    ((mark_unhealthy t0 x st).map Prod.fst).Nodup := by
  unfold mark_unhealthy
  cases h : lookupKey x st with
  | some t =>
      rw [if_pos (by simp)]
      rw [keys_map_overwrite]
      exact hnd
  | none =>
      rw [if_neg (by simp)]
      rw [List.map_append]
      refine List.Nodup.append hnd (by simp) ?_
      intro a ha hb
      simp only [List.map_cons, List.map_nil, List.mem_singleton] at hb
      subst hb
      exact (lookupKey_none_iff.1 h) ha

theorem lookupKey_removeKey_self {α : Type} {st : List (String × α)}
    {x : String} (hnd : (st.map Prod.fst).Nodup) :
    lookupKey x (removeKey x st) = none := by
  induction st with
  | nil => simp [removeKey, lookupKey]
  | cons p rest ih =>
      obtain ⟨k, v⟩ := p
      simp only [List.map_cons, List.nodup_cons] at hnd
      rw [removeKey]
      by_cases hk : k = x
      · rw [if_pos hk]
        subst hk
        exact lookupKey_none_iff.2 hnd.1
      · rw [if_neg hk]
        rw [lookupKey, if_neg hk]
        exact ih hnd.2

end HealthTracker

/-- C9: for a health tracker with cooldown T, after mark_unhealthy records a
failure for x at monotonic time t0, is_healthy at any time with elapsed time
below T returns false; at any time with elapsed time at least T it returns
true and purges the record for x, so a later is_healthy call with no new
failure also returns true. -/
theorem C9_health_cooldown_lifecycle (T t0 t1 t2 : ℚ) (x : String)
    (st : HealthTracker.HealthState) (hnd : (st.map Prod.fst).Nodup)
    (h1 : t1 - t0 < T) (h2 : t2 - t0 ≥ T) :
    (HealthTracker.is_healthy T t1 x (HealthTracker.mark_unhealthy t0 x st)).1
      = false ∧
    ∃ st2,
      HealthTracker.is_healthy T t2 x (HealthTracker.mark_unhealthy t0 x st)
        = (true, st2) ∧
      lookupKey x st2 = none ∧
      ∀ t3, (HealthTracker.is_healthy T t3 x st2).1 = true := by
  have hlook := HealthTracker.lookupKey_mark_self t0 x st
  constructor
  · simp only [HealthTracker.is_healthy, hlook]
    have hc : ¬ (t1 - t0 ≥ T) := by linarith
    rw [if_neg hc]
  · refine ⟨removeKey x (HealthTracker.mark_unhealthy t0 x st),
      ?_, ?_, ?_⟩
    · simp only [HealthTracker.is_healthy, hlook]
      rw [if_pos h2]
    · exact HealthTracker.lookupKey_removeKey_self
        (HealthTracker.keys_mark t0 x st hnd)
    · intro t3
      simp only [HealthTracker.is_healthy,
        HealthTracker.lookupKey_removeKey_self
          (HealthTracker.keys_mark t0 x st hnd)]

/-- Witness for C9 with cooldown 300 starting from the empty failure map. -/
theorem C9_health_cooldown_lifecycle_witness :
    (HealthTracker.is_healthy 300 100 "x" (HealthTracker.mark_unhealthy 0 "x" [])).1
      = false ∧
    ∃ st2,
      HealthTracker.is_healthy 300 400 "x" (HealthTracker.mark_unhealthy 0 "x" [])
        = (true, st2) ∧
      lookupKey "x" st2 = none ∧
      ∀ t3, (HealthTracker.is_healthy 300 t3 "x" st2).1 = true :=
  C9_health_cooldown_lifecycle 300 0 100 400 "x" [] (by simp) (by norm_num)
    (by norm_num)

namespace ConversationHistory

/-- One conversation message: role and content (OpenAI-format dict). -/
structure Msg where
  role : String
  content : String
deriving DecidableEq

/-- Translation of ConversationHistory.turn_count (src/router/history.py):
the number of user-role messages. -/
def turn_count (ms : List Msg) : Nat :=
  (ms.filter (fun m => m.role == "user")).length

/-- Indices of the user-role messages, in order, starting the numbering at
the given offset.  Models the Python enumerate comprehension in _trim. -/
def user_indices_from (ms : List Msg) (start : Nat) : List Nat :=
  match ms with
  | [] => []
  | m :: rest =>
      if m.role == "user" then start :: user_indices_from rest (start + 1)
      else user_indices_from rest (start + 1)

/-- Indices of all user-role messages of the sequence. -/
def user_indices (ms : List Msg) : List Nat :=
  user_indices_from ms 0

/-- Translation of ConversationHistory._trim: no-op while the turn count is
within budget; otherwise cut at the index of the excess-th user message,
keeping the leading run of system messages, unless there are not more user
messages than the excess (safety guard). -/
def trim (maxTurns : Nat) (ms : List Msg) : List Msg :=
  if turn_count ms ≤ maxTurns then ms
  else
    let excess := turn_count ms - maxTurns
    let userIdx := user_indices ms
    if userIdx.length ≤ excess then ms
    else
      let cutAt := userIdx.getD excess 0
      let sysLead := ms.takeWhile (fun m => m.role == "system")
      sysLead ++ ms.drop cutAt

/-- Translation of ConversationHistory.update: replace the stored sequence
wholesale, then trim. -/
def update (maxTurns : Nat) (ms : List Msg) : List Msg :=
  trim maxTurns ms

/-- Translation of ConversationHistory.append_user: append a user message and
return the full sequence. -/
def append_user (content : String) (ms : List Msg) : List Msg :=
  ms ++ [{ role := "user", content := content }]

theorem turn_count_nil : turn_count [] = 0 := rfl

theorem turn_count_cons (m : Msg) (rest : List Msg) :
    turn_count (m :: rest) =
      (if m.role == "user" then 1 else 0) + turn_count rest := by
  unfold turn_count
  rw [List.filter_cons]
  by_cases h : m.role == "user"
  · simp only [h, if_true, List.length_cons]
    omega
  · simp [h]

/-- The k-th recorded user index really is the position of a user message
preceded by exactly k user messages. -/
theorem user_indices_from_spec {ms : List Msg} {s k i : Nat}
    (h : (user_indices_from ms s).get? k = some i) :
    ∃ j, i = s + j ∧ j < ms.length ∧ turn_count (ms.take j) = k ∧
      ∃ m, ms.get? j = some m ∧ m.role = "user" := by
  induction ms generalizing s k with
  | nil => simp [user_indices_from] at h
  | cons m rest ih =>
      by_cases hm : m.role == "user"
      · rw [user_indices_from, if_pos hm] at h
        cases k with
        | zero =>
            rw [List.get?_cons_zero] at h
            injection h with h1
            subst h1
            exact ⟨0, by omega, by simp, by simp [turn_count], m, rfl,
              by simpa using hm⟩
        | succ k1 =>
            rw [List.get?_cons_succ] at h
            obtain ⟨j, hij, hjlen, hcount, m2, hget, hrole⟩ := ih h
            refine ⟨j + 1, by omega, by simp; omega, ?_, m2, by simpa using hget,
              hrole⟩
            rw [List.take_succ_cons, turn_count_cons, if_pos hm, hcount]
            omega
      · rw [user_indices_from, if_neg hm] at h
        obtain ⟨j, hij, hjlen, hcount, m2, hget, hrole⟩ := ih h
        refine ⟨j + 1, by omega, by simp; omega, ?_, m2, by simpa using hget,
          hrole⟩
        rw [List.take_succ_cons, turn_count_cons, if_neg hm, hcount]
        simp

end ConversationHistory

/-- C4: history trimming.  If the user-message count is within max_turns,
update does not trim.  Otherwise, when the excess-th user-message index (the
cut point) exists, the updated sequence is the leading run of system messages
followed by the suffix from the cut point, the cut point carries exactly
excess user messages before it and holds a user message; and in the concrete
instance with max_turns 1, a system message and two user/assistant pairs,
only the system message and the final pair remain. -/
theorem C4_history_trim (maxTurns : Nat) (ms : List ConversationHistory.Msg) :
    (ConversationHistory.turn_count ms ≤ maxTurns →
      ConversationHistory.update maxTurns ms = ms) ∧
    (∀ cut, maxTurns < ConversationHistory.turn_count ms →
      (ConversationHistory.user_indices ms).get?
          (ConversationHistory.turn_count ms - maxTurns) = some cut →
      (ConversationHistory.update maxTurns ms =
          ms.takeWhile (fun m => m.role == "system") ++ ms.drop cut
        ∧ ConversationHistory.turn_count (ms.take cut) =
            ConversationHistory.turn_count ms - maxTurns
        ∧ ∃ m, ms.get? cut = some m ∧ m.role = "user")) ∧
    ConversationHistory.update 1
        [⟨"system", "s"⟩, ⟨"user", "u1"⟩, ⟨"assistant", "a1"⟩,
          ⟨"user", "u2"⟩, ⟨"assistant", "a2"⟩]
      = [⟨"system", "s"⟩, ⟨"user", "u2"⟩, ⟨"assistant", "a2"⟩] := by
  refine ⟨?_, ?_, by decide⟩
  · intro h
    unfold ConversationHistory.update ConversationHistory.trim
    rw [if_pos h]
  · intro cut hgt hcut
    have hlen : ConversationHistory.turn_count ms - maxTurns <
        (ConversationHistory.user_indices ms).length := by
      obtain ⟨hl, _⟩ := List.get?_eq_some.1 hcut
      exact hl
    constructor
    · unfold ConversationHistory.update ConversationHistory.trim
      rw [if_neg (by omega)]
      simp only []
      rw [if_neg (by omega)]
      have hgetD : (ConversationHistory.user_indices ms).getD
          (ConversationHistory.turn_count ms - maxTurns) 0 = cut := by
        simp [List.getD_eq_getElem?_getD, ← List.get?_eq_getElem?, hcut]
      rw [hgetD]
    · obtain ⟨j, hij, hjlen, hcount, m2, hget, hrole⟩ :=
        ConversationHistory.user_indices_from_spec hcut
      refine ⟨?_, m2, ?_, hrole⟩
      · rw [show cut = j by omega]
        exact hcount
      · rw [show cut = j by omega]
        exact hget

/-- Witness for C4 with max_turns 1 on a five-message history. -/
theorem C4_history_trim_witness :
    ConversationHistory.update 1
        [⟨"system", "s"⟩, ⟨"user", "u1"⟩, ⟨"assistant", "a1"⟩,
          ⟨"user", "u2"⟩, ⟨"assistant", "a2"⟩]
      = [⟨"system", "s"⟩, ⟨"user", "u2"⟩, ⟨"assistant", "a2"⟩]
    ∧ ConversationHistory.turn_count
        ([⟨"system", "s"⟩, ⟨"user", "u1"⟩, ⟨"assistant", "a1"⟩,
          ⟨"user", "u2"⟩, ⟨"assistant", "a2"⟩].take 3) = 1 := by
  have h := C4_history_trim 1
    [⟨"system", "s"⟩, ⟨"user", "u1"⟩, ⟨"assistant", "a1"⟩,
      ⟨"user", "u2"⟩, ⟨"assistant", "a2"⟩]
  exact ⟨h.2.2, (h.2.1 3 (by decide) (by decide)).2.1⟩

namespace ToolRegistry

/-- A cached registry record (src/router/registry.py cache_embeddings):
identifier, description, embedding vector.  The vector type V is kept
abstract and the cosine-similarity computation over float vectors is a
parameter of the embedding, since its irrational square roots have no exact
executable translation; the claims under verification concern only the
filtering and deduplication logic applied to the scores. -/
structure Entry (V : Type) where
  url : String
  description : String
  embedding : V

/-- A search hit as returned by ToolRegistry.search. -/
structure SearchHit where
  url : String
  description : String
  score : ℚ
deriving DecidableEq

/-- Python round(x, 4): round to four decimal places, ties to even. -/
def round4 (x : ℚ) : ℚ :=
  let y := x * 10000
  let f := Int.floor y
  let frac := y - f
  let r : Int :=
    if frac < 1/2 then f
    else if 1/2 < frac then f + 1
    else if f % 2 = 0 then f else f + 1
  (r : ℚ) / 10000

variable {V : Type}

/-- Inner scoring loop of search for one query vector: every cached entry
with its similarity score, keeping those at or above the absolute
threshold, in cache order. -/
def scoredFor (sim : V → V → ℚ) (threshold : ℚ) (cache : List (Entry V))
    (qv : V) : List (Entry V × ℚ) :=
  (cache.map (fun tool => (tool, sim qv tool.embedding))).filter
    (fun p => threshold ≤ p.2)

/-- Python max over the scores of a nonempty scored list (the empty case is
unreachable behind the guard in search). -/
def bestScore : List (Entry V × ℚ) → ℚ
  | [] => 0
  | p :: rest => rest.foldl (fun b q => max b q.2) p.2

/-- Insertion loop of search for one query: each surviving entry is inserted
into the result map only if its identifier is not already present
(first-write-wins).  The map is an association list in insertion order,
matching Python dict iteration order. -/
def insertQuery (cutoff : ℚ) :
    List (Entry V × ℚ) → List (String × SearchHit) → List (String × SearchHit)
  | [], matched => matched
  | (tool, score) :: rest, matched =>
      if cutoff ≤ score ∧ lookupKey tool.url matched = none then
        insertQuery cutoff rest
          (matched ++ [(tool.url, ⟨tool.url, tool.description, round4 score⟩)])
      else
        insertQuery cutoff rest matched

/-- Outer query loop of search: score, skip queries with no entry above the
absolute threshold, compute the relative cutoff from the best score, insert
survivors. -/
def searchLoop (sim : V → V → ℚ) (threshold relCutoff : ℚ)
    (cache : List (Entry V)) :
    List V → List (String × SearchHit) → List (String × SearchHit)
  | [], matched => matched
  | qv :: qvs, matched =>
      let sc := scoredFor sim threshold cache qv
      if sc.isEmpty then searchLoop sim threshold relCutoff cache qvs matched
      else
        searchLoop sim threshold relCutoff cache qvs
          (insertQuery (bestScore sc * relCutoff) sc matched)

/-- Translation of ToolRegistry.search: empty result without calling the
provider when there are no queries or no cached entries; otherwise embed all
queries in one batch and run the query loop; the result is the list of the
map values in insertion order. -/
def search (sim : V → V → ℚ) (threshold relCutoff : ℚ)
    (embed : List String → List V) (cache : List (Entry V))
    (queries : List String) : List SearchHit :=
  if queries.isEmpty ∨ cache.isEmpty then []
  else (searchLoop sim threshold relCutoff cache (embed queries) []).map Prod.snd

/-- The entries of one query that survive both filters (the insert condition
of the inner loop, independent of the dedup state). -/
def survivors (sim : V → V → ℚ) (threshold relCutoff : ℚ)
    (cache : List (Entry V)) (qv : V) : List (Entry V × ℚ) :=
  let sc := scoredFor sim threshold cache qv
  sc.filter (fun p => bestScore sc * relCutoff ≤ p.2)

theorem scoredFor_mem {sim : V → V → ℚ} {threshold : ℚ}
    {cache : List (Entry V)} {qv : V} {tool : Entry V} {score : ℚ}
    (h : (tool, score) ∈ scoredFor sim threshold cache qv) :
    tool ∈ cache ∧ score = sim qv tool.embedding ∧ threshold ≤ score := by
  unfold scoredFor at h
  obtain ⟨t, htc, hte⟩ := List.mem_map.1 (List.mem_of_mem_filter h)
  have h1 : t = tool := congrArg Prod.fst hte
  subst h1
  have h2 : sim qv t.embedding = score := congrArg Prod.snd hte
  exact ⟨htc, h2.symm, by simpa using List.of_mem_filter h⟩

end ToolRegistry

namespace ToolRegistry

theorem insertQuery_mem {cutoff : ℚ} {sc : List (Entry V × ℚ)}
    {matched : List (String × SearchHit)} {p : String × SearchHit}
    (h : p ∈ insertQuery cutoff sc matched) :
    p ∈ matched ∨ ∃ tool score, (tool, score) ∈ sc ∧ cutoff ≤ score ∧
      p = (tool.url, ⟨tool.url, tool.description, round4 score⟩) := by
  induction sc generalizing matched with
  | nil => exact Or.inl h
  | cons q rest ih =>
      obtain ⟨tool, score⟩ := q
      rw [insertQuery] at h
      by_cases hc : cutoff ≤ score ∧ lookupKey tool.url matched = none
      · rw [if_pos hc] at h
        rcases ih h with hm | ⟨t2, s2, hmem, hcut, hp⟩
        · rcases List.mem_append.1 hm with hm | hm
          · exact Or.inl hm
          · rw [List.mem_singleton] at hm
            exact Or.inr ⟨tool, score, List.mem_cons_self _ _, hc.1, hm⟩
        · exact Or.inr ⟨t2, s2, List.mem_cons_of_mem _ hmem, hcut, hp⟩
      · rw [if_neg hc] at h
        rcases ih h with hm | ⟨t2, s2, hmem, hcut, hp⟩
        · exact Or.inl hm
        · exact Or.inr ⟨t2, s2, List.mem_cons_of_mem _ hmem, hcut, hp⟩

theorem searchLoop_mem {sim : V → V → ℚ} {threshold relCutoff : ℚ}
    {cache : List (Entry V)} {qvs : List V}
    {matched : List (String × SearchHit)} {p : String × SearchHit}
    (h : p ∈ searchLoop sim threshold relCutoff cache qvs matched) :
    p ∈ matched ∨ ∃ qv ∈ qvs, ∃ tool score,
      (tool, score) ∈ scoredFor sim threshold cache qv ∧
      bestScore (scoredFor sim threshold cache qv) * relCutoff ≤ score ∧
      p = (tool.url, ⟨tool.url, tool.description, round4 score⟩) := by
  induction qvs generalizing matched with
  | nil => exact Or.inl h
  | cons qv qvs ih =>
      simp only [searchLoop] at h
      by_cases he : (scoredFor sim threshold cache qv).isEmpty
      · rw [if_pos he] at h
        rcases ih h with hm | ⟨q2, hq2, tool, score, hsc, hcut, hp⟩
        · exact Or.inl hm
        · exact Or.inr ⟨q2, List.mem_cons_of_mem _ hq2, tool, score, hsc, hcut, hp⟩
      · rw [if_neg he] at h
        rcases ih h with hm | ⟨q2, hq2, tool, score, hsc, hcut, hp⟩
        · rcases insertQuery_mem hm with hm2 | ⟨tool, score, hsc, hcut, hp⟩
          · exact Or.inl hm2
          · exact Or.inr ⟨qv, List.mem_cons_self _ _, tool, score, hsc, hcut, hp⟩
        · exact Or.inr ⟨q2, List.mem_cons_of_mem _ hq2, tool, score, hsc, hcut, hp⟩

end ToolRegistry

/-- C5: every hit returned by a search call scores, before rounding, at or
above the absolute similarity threshold and at or above relative_score_cutoff
times the best above-threshold score of the query that contributed it. -/
theorem C5_search_two_tier_filter {V : Type} (sim : V → V → ℚ)
    (threshold relCutoff : ℚ) (embed : List String → List V)
    (cache : List (ToolRegistry.Entry V)) (queries : List String)
    (hit : ToolRegistry.SearchHit)
    (h : hit ∈ ToolRegistry.search sim threshold relCutoff embed cache queries) :
    ∃ qv ∈ embed queries, ∃ entry ∈ cache,
      hit.url = entry.url ∧
      hit.score = ToolRegistry.round4 (sim qv entry.embedding) ∧
      threshold ≤ sim qv entry.embedding ∧
      ToolRegistry.bestScore
          (ToolRegistry.scoredFor sim threshold cache qv) * relCutoff
        ≤ sim qv entry.embedding := by
  unfold ToolRegistry.search at h
  by_cases hg : queries.isEmpty ∨ cache.isEmpty
  · rw [if_pos hg] at h
    simp at h
  · rw [if_neg hg] at h
    obtain ⟨p, hp, hps⟩ := List.mem_map.1 h
    rcases ToolRegistry.searchLoop_mem hp with hm |
      ⟨qv, hqv, tool, score, hsc, hcut, hpe⟩
    · simp at hm
    · obtain ⟨htc, hscore, hth⟩ := ToolRegistry.scoredFor_mem hsc
      subst hscore
      refine ⟨qv, hqv, tool, htc, ?_, ?_, hth, hcut⟩
      · rw [← hps, hpe]
      · rw [← hps, hpe]

/-- Witness for C5 on a one-entry cache with a constant similarity of 1. -/
theorem C5_search_two_tier_filter_witness :
    ∃ qv ∈ (fun qs : List String => qs.map (fun _ => ())) ["q"],
      ∃ entry ∈ [ToolRegistry.Entry.mk "u" "d" ()],
        (ToolRegistry.SearchHit.mk "u" "d" (ToolRegistry.round4 1)).url
          = entry.url ∧
        (ToolRegistry.SearchHit.mk "u" "d" (ToolRegistry.round4 1)).score =
          ToolRegistry.round4 ((fun _ _ : Unit => (1 : ℚ)) qv entry.embedding) ∧
        (0 : ℚ) ≤ (fun _ _ : Unit => (1 : ℚ)) qv entry.embedding ∧
        ToolRegistry.bestScore
            (ToolRegistry.scoredFor (fun _ _ : Unit => (1 : ℚ)) 0
              [ToolRegistry.Entry.mk "u" "d" ()] qv) * 1
          ≤ (fun _ _ : Unit => (1 : ℚ)) qv entry.embedding :=
  C5_search_two_tier_filter (fun _ _ : Unit => (1 : ℚ)) 0 1
    (fun qs => qs.map (fun _ => ())) [ToolRegistry.Entry.mk "u" "d" ()] ["q"]
    (ToolRegistry.SearchHit.mk "u" "d" (ToolRegistry.round4 1)) (by
      simp [ToolRegistry.search, ToolRegistry.searchLoop, ToolRegistry.scoredFor,
        ToolRegistry.insertQuery, ToolRegistry.bestScore, lookupKey])

namespace ToolRegistry

theorem lookupKey_append_left {α : Type} {m l2 : List (String × α)}
    {url : String} {v : α} (h : lookupKey url m = some v) :
    lookupKey url (m ++ l2) = some v := by
  induction m with
  | nil => simp [lookupKey] at h
  | cons p rest ih =>
      obtain ⟨k, w⟩ := p
      rw [lookupKey] at h
      rw [List.cons_append, lookupKey]
      by_cases hk : k = url
      · rw [if_pos hk] at h ⊢
        exact h
      · rw [if_neg hk] at h ⊢
        exact ih h

theorem lookupKey_append_ne {α : Type} {m : List (String × α)} {k url : String}
    {v : α} (hne : k ≠ url) :
    lookupKey url (m ++ [(k, v)]) = lookupKey url m := by
  induction m with
  | nil => simp [lookupKey, if_neg hne]
  | cons p rest ih =>
      obtain ⟨k2, w⟩ := p
      rw [List.cons_append, lookupKey, lookupKey]
      by_cases hk : k2 = url
      · rw [if_pos hk, if_pos hk]
      · rw [if_neg hk, if_neg hk]
        exact ih

theorem lookupKey_some_mem {α : Type} {m : List (String × α)} {url : String}
    {v : α} (h : lookupKey url m = some v) : (url, v) ∈ m := by
  induction m with
  | nil => simp [lookupKey] at h
  | cons p rest ih =>
      obtain ⟨k, w⟩ := p
      rw [lookupKey] at h
      by_cases hk : k = url
      · rw [if_pos hk] at h
        injection h with h1
        subst hk
        subst h1
        exact List.mem_cons_self _ _
      · rw [if_neg hk] at h
        exact List.mem_cons_of_mem _ (ih h)

/-- Well-formedness of the dedup map: keys are unique and each stored hit
carries its key as identifier. -/
def KeysOk (m : List (String × SearchHit)) : Prop :=
  (m.map Prod.fst).Nodup ∧ ∀ p ∈ m, p.2.url = p.1

theorem insertQuery_keysOk {cutoff : ℚ} {sc : List (Entry V × ℚ)}
    {m : List (String × SearchHit)} (h : KeysOk m) :
    KeysOk (insertQuery cutoff sc m) := by
  induction sc generalizing m with
  | nil => exact h
  | cons q rest ih =>
      obtain ⟨tool, score⟩ := q
      rw [insertQuery]
      by_cases hc : cutoff ≤ score ∧ lookupKey tool.url m = none
      · rw [if_pos hc]
        apply ih
        obtain ⟨hnd, hurl⟩ := h
        constructor
        · rw [List.map_append]
          exact ToolCache.nodupSnoc hnd (lookupKey_none_iff.1 hc.2)
        · intro p hp
          rcases List.mem_append.1 hp with hp | hp
          · exact hurl p hp
          · rw [List.mem_singleton] at hp
            subst hp
            rfl
      · rw [if_neg hc]
        exact ih h

theorem searchLoop_keysOk {sim : V → V → ℚ} {threshold relCutoff : ℚ}
    {cache : List (Entry V)} {qvs : List V} {m : List (String × SearchHit)}
    (h : KeysOk m) : KeysOk (searchLoop sim threshold relCutoff cache qvs m) := by
  induction qvs generalizing m with
  | nil => exact h
  | cons qv qvs ih =>
      simp only [searchLoop]
      by_cases he : (scoredFor sim threshold cache qv).isEmpty
      · rw [if_pos he]
        exact ih h
      · rw [if_neg he]
        exact ih (insertQuery_keysOk h)

theorem insertQuery_preserve_some {cutoff : ℚ} {sc : List (Entry V × ℚ)}
    {m : List (String × SearchHit)} {url : String} {v : SearchHit}
    (h : lookupKey url m = some v) :
    lookupKey url (insertQuery cutoff sc m) = some v := by
  induction sc generalizing m with
  | nil => exact h
  | cons q rest ih =>
      obtain ⟨tool, score⟩ := q
      rw [insertQuery]
      by_cases hc : cutoff ≤ score ∧ lookupKey tool.url m = none
      · rw [if_pos hc]
        exact ih (lookupKey_append_left h)
      · rw [if_neg hc]
        exact ih h

theorem searchLoop_preserve_some {sim : V → V → ℚ} {threshold relCutoff : ℚ}
    {cache : List (Entry V)} {qvs : List V} {m : List (String × SearchHit)}
    {url : String} {v : SearchHit} (h : lookupKey url m = some v) :
    lookupKey url (searchLoop sim threshold relCutoff cache qvs m) = some v := by
  induction qvs generalizing m with
  | nil => exact h
  | cons qv qvs ih =>
      simp only [searchLoop]
      by_cases he : (scoredFor sim threshold cache qv).isEmpty
      · rw [if_pos he]
        exact ih h
      · rw [if_neg he]
        exact ih (insertQuery_preserve_some h)

theorem insertQuery_lookup_avoid {cutoff : ℚ} {sc : List (Entry V × ℚ)}
    {m : List (String × SearchHit)} {url : String}
    (havoid : ∀ t s, (t, s) ∈ sc → cutoff ≤ s → t.url ≠ url) :
    lookupKey url (insertQuery cutoff sc m) = lookupKey url m := by
  induction sc generalizing m with
  | nil => rfl
  | cons q rest ih =>
      obtain ⟨tool, score⟩ := q
      rw [insertQuery]
      by_cases hc : cutoff ≤ score ∧ lookupKey tool.url m = none
      · rw [if_pos hc]
        rw [ih (fun t s hts => havoid t s (List.mem_cons_of_mem _ hts))]
        exact lookupKey_append_ne
          (havoid tool score (List.mem_cons_self _ _) hc.1)
      · rw [if_neg hc]
        exact ih (fun t s hts => havoid t s (List.mem_cons_of_mem _ hts))

theorem scoredFor_urls_nodup {sim : V → V → ℚ} {threshold : ℚ}
    {cache : List (Entry V)} {qv : V} (hnd : (cache.map Entry.url).Nodup) :
    ((scoredFor sim threshold cache qv).map (fun p => p.1.url)).Nodup := by
  have hsub : (scoredFor sim threshold cache qv).Sublist
      (cache.map (fun tool => (tool, sim qv tool.embedding))) :=
    List.filter_sublist _
  have hsub2 := hsub.map (fun p : Entry V × ℚ => p.1.url)
  rw [List.map_map] at hsub2
  exact List.Nodup.sublist hsub2 hnd

theorem insertQuery_lookup_insert {cutoff : ℚ} {sc : List (Entry V × ℚ)}
    {m : List (String × SearchHit)} {tool : Entry V} {score : ℚ}
    (hnd : (sc.map (fun p => p.1.url)).Nodup)
    (hmem : (tool, score) ∈ sc) (hcut : cutoff ≤ score)
    (hnone : lookupKey tool.url m = none) :
    lookupKey tool.url (insertQuery cutoff sc m)
      = some ⟨tool.url, tool.description, round4 score⟩ := by
  induction sc generalizing m with
  | nil => simp at hmem
  | cons q rest ih =>
      obtain ⟨t1, s1⟩ := q
      rcases List.mem_cons.1 hmem with heq | hmem2
      · injection heq with h1 h2
        subst h1
        subst h2
        rw [insertQuery, if_pos ⟨hcut, hnone⟩]
        exact insertQuery_preserve_some
          (HealthTracker.lookupKey_append_right _ _ hnone)
      · have hndr : (rest.map (fun p => p.1.url)).Nodup := by
          rw [List.map_cons, List.nodup_cons] at hnd
          exact hnd.2
        have hne : t1.url ≠ tool.url := by
          rw [List.map_cons, List.nodup_cons] at hnd
          intro hurl
          apply hnd.1
          rw [hurl]
          exact List.mem_map_of_mem (fun p : Entry V × ℚ => p.1.url) hmem2
        rw [insertQuery]
        by_cases hc : cutoff ≤ s1 ∧ lookupKey t1.url m = none
        · rw [if_pos hc]
          apply ih hndr hmem2
          rw [lookupKey_append_ne hne]
          exact hnone
        · rw [if_neg hc]
          exact ih hndr hmem2 hnone

theorem searchLoop_first_wins {sim : V → V → ℚ} {threshold relCutoff : ℚ}
    {cache : List (Entry V)} (hnd : (cache.map Entry.url).Nodup)
    {pre post : List V} {qv : V} {tool : Entry V} {score : ℚ}
    {m : List (String × SearchHit)}
    (havoid : ∀ q ∈ pre, ∀ t s,
      (t, s) ∈ survivors sim threshold relCutoff cache q → t.url ≠ tool.url)
    (hsurv : (tool, score) ∈ survivors sim threshold relCutoff cache qv)
    (hnone : lookupKey tool.url m = none) :
    lookupKey tool.url
        (searchLoop sim threshold relCutoff cache (pre ++ qv :: post) m)
      = some ⟨tool.url, tool.description, round4 score⟩ := by
  induction pre generalizing m with
  | nil =>
      rw [List.nil_append]
      simp only [searchLoop]
      have hscmem : (tool, score) ∈ scoredFor sim threshold cache qv :=
        List.mem_of_mem_filter hsurv
      have hcut : bestScore (scoredFor sim threshold cache qv) * relCutoff
          ≤ score := by
        simpa using List.of_mem_filter hsurv
      have hne : ¬ (scoredFor sim threshold cache qv).isEmpty := by
        intro he
        rw [List.isEmpty_iff] at he
        rw [he] at hscmem
        simp at hscmem
      rw [if_neg hne]
      exact searchLoop_preserve_some
        (insertQuery_lookup_insert (scoredFor_urls_nodup hnd) hscmem hcut hnone)
  | cons q pre ih =>
      rw [List.cons_append]
      simp only [searchLoop]
      have havoid2 : ∀ q2 ∈ pre, ∀ t s,
          (t, s) ∈ survivors sim threshold relCutoff cache q2 →
          t.url ≠ tool.url :=
        fun q2 hq2 => havoid q2 (List.mem_cons_of_mem _ hq2)
      by_cases he : (scoredFor sim threshold cache q).isEmpty
      · rw [if_pos he]
        exact ih havoid2 hnone
      · rw [if_neg he]
        apply ih havoid2
        have hav : ∀ t s, (t, s) ∈ scoredFor sim threshold cache q →
            bestScore (scoredFor sim threshold cache q) * relCutoff ≤ s →
            t.url ≠ tool.url := by
          intro t s hts hcs
          exact havoid q (List.mem_cons_self _ _) t s
            (List.mem_filter.2 ⟨hts, by simpa using hcs⟩)
        rw [insertQuery_lookup_avoid hav]
        exact hnone

end ToolRegistry

/-- C6: a search result never contains two hits with the same identifier,
and when an identifier survives both filters for several queries, the hit
kept in the result is the one built from the earliest such query (with that
query's score), regardless of the scores of the later queries. -/
theorem C6_search_dedup_first_query_wins {V : Type} (sim : V → V → ℚ)
    (threshold relCutoff : ℚ) (embed : List String → List V)
    (cache : List (ToolRegistry.Entry V)) (queries : List String) :
    ((ToolRegistry.search sim threshold relCutoff embed cache queries).map
        ToolRegistry.SearchHit.url).Nodup ∧
    ∀ (pre post : List V) (qv : V) (tool : ToolRegistry.Entry V) (score : ℚ),
      (cache.map ToolRegistry.Entry.url).Nodup →
      queries.isEmpty = false →
      cache.isEmpty = false →
      embed queries = pre ++ qv :: post →
      (∀ q ∈ pre, ∀ t s,
        (t, s) ∈ ToolRegistry.survivors sim threshold relCutoff cache q →
        t.url ≠ tool.url) →
      (tool, score) ∈ ToolRegistry.survivors sim threshold relCutoff cache qv →
      ToolRegistry.SearchHit.mk tool.url tool.description
          (ToolRegistry.round4 score)
        ∈ ToolRegistry.search sim threshold relCutoff embed cache queries := by
  constructor
  · unfold ToolRegistry.search
    by_cases hg : queries.isEmpty ∨ cache.isEmpty
    · rw [if_pos hg]
      simp
    · rw [if_neg hg]
      obtain ⟨hnd, hurl⟩ :=
        @ToolRegistry.searchLoop_keysOk V sim threshold relCutoff cache
          (embed queries) [] ⟨by simp, by simp⟩
      rw [List.map_map]
      have hmc : List.map (ToolRegistry.SearchHit.url ∘ Prod.snd)
            (ToolRegistry.searchLoop sim threshold relCutoff cache
              (embed queries) [])
          = List.map Prod.fst
            (ToolRegistry.searchLoop sim threshold relCutoff cache
              (embed queries) []) :=
        List.map_congr_left hurl
      rw [hmc]
      exact hnd
  · intro pre post qv tool score hnd hq hc hembed havoid hsurv
    unfold ToolRegistry.search
    rw [if_neg (by rw [hq, hc]; simp)]
    rw [hembed]
    have hlk := @ToolRegistry.searchLoop_first_wins V sim threshold relCutoff
      cache hnd pre post qv tool score [] havoid hsurv rfl
    exact List.mem_map_of_mem Prod.snd (ToolRegistry.lookupKey_some_mem hlk)

/-- Witness for C6: two queries match the same identifier; the first scores
one half, the second scores 1; the result keeps the first score. -/
theorem C6_search_dedup_first_query_wins_witness :
    ToolRegistry.SearchHit.mk "u" "d" (ToolRegistry.round4 (1/2))
      ∈ ToolRegistry.search
          (fun q _ : ℕ => if q = 0 then (1/2 : ℚ) else 1) 0 1
          (fun _ => [0, 1]) [ToolRegistry.Entry.mk "u" "d" 7] ["a", "b"] :=
  (C6_search_dedup_first_query_wins
      (fun q _ : ℕ => if q = 0 then (1/2 : ℚ) else 1) 0 1
      (fun _ => [0, 1]) [ToolRegistry.Entry.mk "u" "d" 7] ["a", "b"]).2
    [] [1] 0 (ToolRegistry.Entry.mk "u" "d" 7) (1/2)
    (by decide) rfl rfl rfl (by simp)
    (by norm_num [ToolRegistry.survivors, ToolRegistry.scoredFor,
      ToolRegistry.bestScore])

namespace UsageMetrics

/-- Outcome of processing one line of the usage log
(src/router/metrics.py get_top_tools).  The JSON library is external; a line
is either blank (skipped before parsing), a JSON decode failure (the only
exception type the except clause catches), valid JSON that is not an object
(entry.get then raises AttributeError, which is not caught), a JSON object
whose tools_used field holds an array of the listed identifier strings (a
missing field defaults to the empty list), or a JSON object whose
tools_used value is ill-typed — not iterable, or holding unhashable items —
so that the for loop or the counter increment raises TypeError, which is
also not caught. -/
inductive JsonLine where
  | blank
  | decodeError
  | nonObject
  | objTools (tools : List String)
  | objBadTools
deriving DecidableEq

/-- Counter increment: counter[tool] += 1.  An existing key keeps its
position; a new key is appended (dict insertion order). -/
def bump (tool : String) : List (String × Nat) → List (String × Nat)
  | [] => [(tool, 1)]
  | (k, c) :: rest =>
      if k = tool then (k, c + 1) :: rest else (k, c) :: bump tool rest

/-- Count every identifier of one tools_used array, in order. -/
def bumpList (tools : List String) (c : List (String × Nat)) :
    List (String × Nat) :=
  tools.foldl (fun acc t => bump t acc) c

/-- The line loop of get_top_tools: blank and JSON-decode-error lines are
skipped; a valid-JSON non-object line raises AttributeError and an object
line with ill-typed tools_used raises TypeError (both uncaught, modelled as
Except.error); a schema-conforming object line counts its tools_used
entries. -/
def countLines : List JsonLine → List (String × Nat) →
    Except Unit (List (String × Nat))
  | [], c => Except.ok c
  | JsonLine.blank :: rest, c => countLines rest c
  | JsonLine.decodeError :: rest, c => countLines rest c
  | JsonLine.nonObject :: _, _ => Except.error ()
  | JsonLine.objTools tools :: rest, c => countLines rest (bumpList tools c)
  | JsonLine.objBadTools :: _, _ => Except.error ()

/-- Stable insertion into a descending-by-count list: the new element goes
after every element with a greater-or-equal count.  Models the stability of
the sort underlying Counter.most_common. -/
def insertDesc (x : String × Nat) : List (String × Nat) → List (String × Nat)
  | [] => [x]
  | y :: ys => if y.2 < x.2 then x :: y :: ys else y :: insertDesc x ys

/-- Stable sort of the counter items by descending count (the sort behind
Counter.most_common: descending by count, ties in insertion order). -/
def sortDesc (c : List (String × Nat)) : List (String × Nat) :=
  c.foldl (fun acc x => insertDesc x acc) []

/-- Translation of Counter.most_common(n): the first n items of the stable
descending sort. -/
def most_common (n : Nat) (c : List (String × Nat)) : List (String × Nat) :=
  (sortDesc c).take n

/-- Translation of UsageMetrics.get_top_tools: empty result when the log
file does not exist (none); otherwise run the counting loop over the lines
and keep the identifiers of the top n items. -/
def get_top_tools (log : Option (List JsonLine)) (n : Nat) :
    Except Unit (List String) :=
  match log with
  | none => Except.ok []
  | some lines =>
      (countLines lines []).map (fun c => (most_common n c).map Prod.fst)

/-- All identifier occurrences across the tools_used arrays of the object
lines, in scan order (the semantic stream that the counter counts). -/
def allTools : List JsonLine → List String
  | [] => []
  | JsonLine.objTools tools :: rest => tools ++ allTools rest
  | _ :: rest => allTools rest

/-- First-occurrence subsequence of a list (accumulator of already-seen
elements): the order in which distinct identifiers are first seen. -/
def firstOccurAux : List String → List String → List String
  | [], _ => []
  | t :: ts, seen =>
      if t ∈ seen then firstOccurAux ts seen
      else t :: firstOccurAux ts (t :: seen)

/-- Distinct identifiers in the order they are first seen during the scan. -/
def firstOccur (l : List String) : List String :=
  firstOccurAux l []

end UsageMetrics

/-- C3 counterexample: a log whose single line is valid JSON but not a JSON
object (for example the line 3) parses without a decode error, and then
entry.get raises AttributeError, which the except clause does not catch:
get_top_tools raises instead of returning. -/
theorem C3_read_can_fail_counterexample :
    UsageMetrics.get_top_tools (some [UsageMetrics.JsonLine.nonObject]) 5
      = Except.error () := rfl

namespace UsageMetrics

theorem countLines_append_skip (pre post : List JsonLine) :
    ∀ c, countLines (pre ++ JsonLine.decodeError :: post) c
      = countLines (pre ++ post) c := by
  induction pre with
  | nil => intro c; rfl
  | cons l pre ih =>
      intro c
      cases l with
      | blank => exact ih c
      | decodeError => exact ih c
      | nonObject => rfl
      | objBadTools => rfl
      | objTools tools => exact ih (bumpList tools c)

theorem countLines_ok (lines : List JsonLine) :
    ∀ c, JsonLine.nonObject ∉ lines → JsonLine.objBadTools ∉ lines →
      countLines lines c = Except.ok (bumpList (allTools lines) c) := by
  induction lines with
  | nil =>
      intro c _ _
      rfl
  | cons l rest ih =>
      intro c hno hnb
      have hno2 : JsonLine.nonObject ∉ rest :=
        fun h => hno (List.mem_cons_of_mem _ h)
      have hnb2 : JsonLine.objBadTools ∉ rest :=
        fun h => hnb (List.mem_cons_of_mem _ h)
      cases l with
      | blank => exact ih c hno2 hnb2
      | decodeError => exact ih c hno2 hnb2
      | nonObject => exact absurd (List.mem_cons_self _ _) hno
      | objBadTools => exact absurd (List.mem_cons_self _ _) hnb
      | objTools tools =>
          have h1 : countLines (JsonLine.objTools tools :: rest) c
              = countLines rest (bumpList tools c) := rfl
          rw [h1, ih (bumpList tools c) hno2 hnb2]
          have h2 : allTools (JsonLine.objTools tools :: rest)
              = tools ++ allTools rest := rfl
          rw [h2]
          unfold bumpList
          rw [List.foldl_append]

/-- A line of valid non-object JSON or an object line with ill-typed
tools_used fails the whole read: the raised AttributeError / TypeError is
not caught by the except clause. -/
theorem countLines_err (lines : List JsonLine) :
    ∀ c, (JsonLine.nonObject ∈ lines ∨ JsonLine.objBadTools ∈ lines) →
      countLines lines c = Except.error () := by
  induction lines with
  | nil =>
      intro c h
      rcases h with h | h <;> simp at h
  | cons l rest ih =>
      intro c h
      cases l with
      | blank =>
          refine ih c ?_
          rcases h with h | h
          · rcases List.mem_cons.1 h with heq | hm
            · exact absurd heq (by decide)
            · exact Or.inl hm
          · rcases List.mem_cons.1 h with heq | hm
            · exact absurd heq (by decide)
            · exact Or.inr hm
      | decodeError =>
          refine ih c ?_
          rcases h with h | h
          · rcases List.mem_cons.1 h with heq | hm
            · exact absurd heq (by decide)
            · exact Or.inl hm
          · rcases List.mem_cons.1 h with heq | hm
            · exact absurd heq (by decide)
            · exact Or.inr hm
      | nonObject => rfl
      | objBadTools => rfl
      | objTools tools =>
          refine ih (bumpList tools c) ?_
          rcases h with h | h
          · rcases List.mem_cons.1 h with heq | hm
            · exact JsonLine.noConfusion heq
            · exact Or.inl hm
          · rcases List.mem_cons.1 h with heq | hm
            · exact JsonLine.noConfusion heq
            · exact Or.inr hm

theorem bump_keys (t : String) (c : List (String × Nat)) :
    (bump t c).map Prod.fst =
      if t ∈ c.map Prod.fst then c.map Prod.fst
      else c.map Prod.fst ++ [t] := by
  induction c with
  | nil => simp [bump]
  | cons p rest ih =>
      obtain ⟨k, c0⟩ := p
      rw [bump]
      by_cases hk : k = t
      · subst hk
        rw [if_pos rfl]
        simp
      · rw [if_neg hk]
        rw [List.map_cons, List.map_cons, ih]
        by_cases hmem : t ∈ rest.map Prod.fst
        · rw [if_pos hmem, if_pos (by simp [hmem])]
        · rw [if_neg hmem, if_neg ?hnc]
          · rw [List.cons_append]
          case hnc =>
            intro hmm
            rcases List.mem_cons.1 hmm with h | h
            · exact hk h.symm
            · exact hmem h

theorem lookupKey_bump_self (t : String) (c : List (String × Nat)) :
    lookupKey t (bump t c) = some ((lookupKey t c).getD 0 + 1) := by
  induction c with
  | nil => simp [bump, lookupKey]
  | cons p rest ih =>
      obtain ⟨k, c0⟩ := p
      rw [bump]
      by_cases hk : k = t
      · subst hk
        rw [if_pos rfl, lookupKey, if_pos rfl, lookupKey, if_pos rfl]
        simp
      · rw [if_neg hk, lookupKey, if_neg hk, lookupKey, if_neg hk]
        exact ih

theorem lookupKey_bump_other {x t : String} (hne : x ≠ t)
    (c : List (String × Nat)) :
    lookupKey x (bump t c) = lookupKey x c := by
  induction c with
  | nil =>
      have hnt : ¬ (t = x) := fun h => hne h.symm
      simp [bump, lookupKey, hnt]
  | cons p rest ih =>
      obtain ⟨k, c0⟩ := p
      rw [bump]
      by_cases hk : k = t
      · subst hk
        rw [if_pos rfl, lookupKey, lookupKey,
          if_neg (fun h => hne h.symm), if_neg (fun h => hne h.symm)]
      · rw [if_neg hk, lookupKey, lookupKey]
        by_cases hkx : k = x
        · rw [if_pos hkx, if_pos hkx]
        · rw [if_neg hkx, if_neg hkx]
          exact ih

theorem lookupKey_of_mem_nodup {α : Type} {c : List (String × α)} {k : String}
    {v : α} (hnd : (c.map Prod.fst).Nodup) (hmem : (k, v) ∈ c) :
    lookupKey k c = some v := by
  induction c with
  | nil => simp at hmem
  | cons p rest ih =>
      obtain ⟨k2, v2⟩ := p
      rw [List.map_cons, List.nodup_cons] at hnd
      rcases List.mem_cons.1 hmem with heq | hmem2
      · injection heq with h1 h2
        subst h1
        subst h2
        rw [lookupKey, if_pos rfl]
      · by_cases hk : k2 = k
        · exfalso
          apply hnd.1
          have hmf := List.mem_map_of_mem Prod.fst hmem2
          rw [hk]
          exact hmf
        · rw [lookupKey, if_neg hk]
          exact ih hnd.2 hmem2

theorem mem_firstOccurAux {l : List String} :
    ∀ {seen : List String} {x : String},
      x ∈ firstOccurAux l seen ↔ x ∈ l ∧ x ∉ seen := by
  induction l with
  | nil =>
      intro seen x
      simp [firstOccurAux]
  | cons t ts ih =>
      intro seen x
      rw [firstOccurAux]
      by_cases ht : t ∈ seen
      · rw [if_pos ht, ih]
        simp only [List.mem_cons]
        constructor
        · rintro ⟨hx, hns⟩
          exact ⟨Or.inr hx, hns⟩
        · rintro ⟨hx | hx, hns⟩
          · subst hx
            exact absurd ht hns
          · exact ⟨hx, hns⟩
      · rw [if_neg ht]
        simp only [List.mem_cons, ih, List.mem_cons]
        constructor
        · rintro (rfl | ⟨hx, hns⟩)
          · exact ⟨Or.inl rfl, ht⟩
          · refine ⟨Or.inr hx, ?_⟩
            intro hs
            exact hns (Or.inr hs)
        · rintro ⟨hx | hx, hns⟩
          · exact Or.inl hx
          · by_cases hxt : x = t
            · exact Or.inl hxt
            · right
              exact ⟨hx, fun hts => hts.elim hxt hns⟩

theorem firstOccurAux_nodup {l : List String} :
    ∀ {seen : List String}, (firstOccurAux l seen).Nodup := by
  induction l with
  | nil =>
      intro seen
      simp [firstOccurAux]
  | cons t ts ih =>
      intro seen
      rw [firstOccurAux]
      by_cases ht : t ∈ seen
      · rw [if_pos ht]
        exact ih
      · rw [if_neg ht]
        rw [List.nodup_cons]
        refine ⟨?_, ih⟩
        intro hmem
        exact (mem_firstOccurAux.1 hmem).2 (List.mem_cons_self _ _)

theorem firstOccurAux_append_single (p : List String) (t : String) :
    ∀ seen, firstOccurAux (p ++ [t]) seen =
      firstOccurAux p seen ++ (if t ∈ seen ∨ t ∈ p then [] else [t]) := by
  induction p with
  | nil =>
      intro seen
      simp only [List.nil_append, firstOccurAux]
      by_cases ht : t ∈ seen
      · rw [if_pos ht, if_pos (Or.inl ht)]
      · rw [if_neg ht, if_neg (by simp [ht])]
  | cons a p ih =>
      intro seen
      simp only [List.cons_append, firstOccurAux, List.append_eq]
      by_cases ha : a ∈ seen
      · rw [if_pos ha, if_pos ha, ih seen]
        by_cases hc : t ∈ seen ∨ t ∈ p
        · rw [if_pos hc, if_pos
            (hc.elim Or.inl (fun h => Or.inr (List.mem_cons_of_mem _ h)))]
        · have hnc : ¬ (t ∈ seen ∨ t ∈ a :: p) := by
            intro hmm
            rcases hmm with h | h
            · exact hc (Or.inl h)
            · rcases List.mem_cons.1 h with rfl | h2
              · exact hc (Or.inl ha)
              · exact hc (Or.inr h2)
          rw [if_neg hc, if_neg hnc]
      · rw [if_neg ha, if_neg ha, ih (a :: seen)]
        by_cases hc : t ∈ seen ∨ t ∈ a :: p
        · have hpc : t ∈ a :: seen ∨ t ∈ p := by
            rcases hc with h | h
            · exact Or.inl (List.mem_cons_of_mem _ h)
            · rcases List.mem_cons.1 h with rfl | h2
              · exact Or.inl (List.mem_cons_self _ _)
              · exact Or.inr h2
          rw [if_pos hpc, if_pos hc]
          simp
        · have hnc2 : ¬ (t ∈ a :: seen ∨ t ∈ p) := by
            intro hmm
            rcases hmm with h | h
            · rcases List.mem_cons.1 h with rfl | h2
              · exact hc (Or.inr (List.mem_cons_self _ _))
              · exact hc (Or.inl h2)
            · exact hc (Or.inr (List.mem_cons_of_mem _ h))
          rw [if_neg hnc2, if_neg hc]
          simp

theorem firstOccur_append_single (p : List String) (t : String) :
    firstOccur (p ++ [t])
      = if t ∈ p then firstOccur p else firstOccur p ++ [t] := by
  unfold firstOccur
  rw [firstOccurAux_append_single p t []]
  by_cases ht : t ∈ p
  · rw [if_pos (Or.inr ht), if_pos ht]
    simp
  · rw [if_neg (by simp [ht]), if_neg ht]

theorem mem_firstOccur {l : List String} {x : String} :
    x ∈ firstOccur l ↔ x ∈ l := by
  unfold firstOccur
  rw [mem_firstOccurAux]
  simp

theorem firstOccur_nodup (l : List String) : (firstOccur l).Nodup :=
  firstOccurAux_nodup

/-- Invariant of the counting loop: the counter keys are the distinct
identifiers in first-seen order, and each count is the number of
occurrences processed so far. -/
def CounterInv (p : List String) (c : List (String × Nat)) : Prop :=
  c.map Prod.fst = firstOccur p ∧ ∀ k, (lookupKey k c).getD 0 = p.count k

theorem counterInv_nil : CounterInv [] [] := by
  constructor
  · rfl
  · intro k
    simp [lookupKey]

theorem counterInv_bump {p : List String} {c : List (String × Nat)}
    (h : CounterInv p c) (t : String) : CounterInv (p ++ [t]) (bump t c) := by
  obtain ⟨hkeys, hcount⟩ := h
  constructor
  · rw [bump_keys, hkeys, firstOccur_append_single]
    by_cases ht : t ∈ p
    · rw [if_pos (mem_firstOccur.2 ht), if_pos ht]
    · rw [if_neg (fun hm => ht (mem_firstOccur.1 hm)), if_neg ht]
  · intro k
    by_cases hk : k = t
    · subst hk
      rw [lookupKey_bump_self]
      simp only [Option.getD_some]
      rw [hcount, List.count_append]
      simp
    · rw [lookupKey_bump_other hk, hcount, List.count_append]
      simp [List.count_cons, hk]

theorem counterInv_bumpList {ts : List String} :
    ∀ {p : List String} {c : List (String × Nat)}, CounterInv p c →
      CounterInv (p ++ ts) (bumpList ts c) := by
  induction ts with
  | nil =>
      intro p c h
      simpa using h
  | cons t ts ih =>
      intro p c h
      have h3 := ih (counterInv_bump h t)
      rwa [List.append_assoc, List.singleton_append] at h3

end UsageMetrics

namespace UsageMetrics

theorem mem_insertDesc {x z : String × Nat} {l : List (String × Nat)} :
    z ∈ insertDesc x l ↔ z = x ∨ z ∈ l := by
  induction l with
  | nil => simp [insertDesc]
  | cons y ys ih =>
      rw [insertDesc]
      by_cases hc : y.2 < x.2
      · rw [if_pos hc]
        simp [List.mem_cons]
      · rw [if_neg hc]
        simp only [List.mem_cons, ih]
        tauto

theorem insertDesc_pairwise (idx : String → Nat) {x : String × Nat}
    {acc : List (String × Nat)}
    (hacc : acc.Pairwise (fun a b =>
      b.2 < a.2 ∨ (a.2 = b.2 ∧ idx a.1 < idx b.1)))
    (hord : ∀ y ∈ acc, idx y.1 < idx x.1) :
    (insertDesc x acc).Pairwise (fun a b =>
      b.2 < a.2 ∨ (a.2 = b.2 ∧ idx a.1 < idx b.1)) := by
  induction acc with
  | nil => simp [insertDesc]
  | cons y ys ih =>
      rw [List.pairwise_cons] at hacc
      obtain ⟨hy, hys⟩ := hacc
      rw [insertDesc]
      by_cases hc : y.2 < x.2
      · rw [if_pos hc]
        rw [List.pairwise_cons]
        constructor
        · intro z hz
          rcases List.mem_cons.1 hz with rfl | hz2
          · exact Or.inl hc
          · rcases hy z hz2 with h | ⟨he, _⟩
            · exact Or.inl (lt_trans h hc)
            · exact Or.inl (he ▸ hc)
        · rw [List.pairwise_cons]
          exact ⟨hy, hys⟩
      · rw [if_neg hc]
        rw [List.pairwise_cons]
        constructor
        · intro z hz
          rcases mem_insertDesc.1 hz with rfl | hz2
          · rcases eq_or_lt_of_le (Nat.le_of_not_lt hc) with he | hlt
            · exact Or.inr ⟨he.symm, hord y (List.mem_cons_self _ _)⟩
            · exact Or.inl hlt
          · exact hy z hz2
        · exact ih hys (fun y2 hy2 => hord y2 (List.mem_cons_of_mem _ hy2))

theorem sortFold_pairwise (idx : String → Nat) {c : List (String × Nat)} :
    ∀ {acc : List (String × Nat)},
      acc.Pairwise (fun a b => b.2 < a.2 ∨ (a.2 = b.2 ∧ idx a.1 < idx b.1)) →
      (∀ y ∈ acc, ∀ z ∈ c, idx y.1 < idx z.1) →
      c.Pairwise (fun a b => idx a.1 < idx b.1) →
      (c.foldl (fun acc x => insertDesc x acc) acc).Pairwise (fun a b =>
        b.2 < a.2 ∨ (a.2 = b.2 ∧ idx a.1 < idx b.1)) := by
  induction c with
  | nil =>
      intro acc hacc _ _
      exact hacc
  | cons x rest ih =>
      intro acc hacc horder hc
      rw [List.pairwise_cons] at hc
      rw [List.foldl_cons]
      apply ih
      · exact insertDesc_pairwise idx hacc
          (fun y hy => horder y hy x (List.mem_cons_self _ _))
      · intro y hy z hz
        rcases mem_insertDesc.1 hy with rfl | hy2
        · exact hc.1 z hz
        · exact horder y hy2 z (List.mem_cons_of_mem _ hz)
      · exact hc.2

theorem nodup_pairwise_indexOf {l : List String} (h : l.Nodup) :
    l.Pairwise (fun a b => l.indexOf a < l.indexOf b) := by
  induction l with
  | nil => simp
  | cons a rest ih =>
      rw [List.nodup_cons] at h
      rw [List.pairwise_cons]
      constructor
      · intro b hb
        have hne : b ≠ a := fun he => h.1 (he ▸ hb)
        rw [List.indexOf_cons_self, List.indexOf_cons_ne _ (Ne.symm hne)]
        omega
      · apply List.Pairwise.imp_of_mem ?_ (ih h.2)
        intro x y hx hy hxy
        have hxa : x ≠ a := fun he => h.1 (he ▸ hx)
        have hya : y ≠ a := fun he => h.1 (he ▸ hy)
        rw [List.indexOf_cons_ne _ (Ne.symm hxa),
          List.indexOf_cons_ne _ (Ne.symm hya)]
        omega

theorem length_insertDesc (x : String × Nat) (l : List (String × Nat)) :
    (insertDesc x l).length = l.length + 1 := by
  induction l with
  | nil => rfl
  | cons y ys ih =>
      rw [insertDesc]
      by_cases hc : y.2 < x.2
      · rw [if_pos hc]
        simp
      · rw [if_neg hc]
        simp [ih]

theorem length_sortDesc (c : List (String × Nat)) :
    (sortDesc c).length = c.length := by
  suffices h : ∀ acc : List (String × Nat),
      (c.foldl (fun acc x => insertDesc x acc) acc).length
        = acc.length + c.length by
    simpa using h []
  induction c with
  | nil =>
      intro acc
      simp
  | cons x rest ih =>
      intro acc
      rw [List.foldl_cons, ih, length_insertDesc]
      simp only [List.length_cons]
      omega

theorem mem_sortFold {c : List (String × Nat)} :
    ∀ {acc : List (String × Nat)} {z : String × Nat},
      z ∈ c.foldl (fun acc x => insertDesc x acc) acc ↔ z ∈ acc ∨ z ∈ c := by
  induction c with
  | nil =>
      intro acc z
      simp
  | cons x rest ih =>
      intro acc z
      rw [List.foldl_cons, ih, mem_insertDesc]
      simp only [List.mem_cons]
      tauto

end UsageMetrics

/-- C3 amended: a missing log yields the empty list; a JSON-decode-error
line anywhere in the log is skipped without affecting the result; a line of
valid non-object JSON (uncaught AttributeError at entry.get) or an object
line with ill-typed tools_used (uncaught TypeError) makes the read raise;
and for every log content free of such lines get_top_tools returns normally
with the top n identifiers by descending occurrence count across the
tools_used arrays, ties broken by first-seen order during the count scan:
the result has min(n, number of distinct identifiers) entries, every entry
is a scanned identifier, the entries are strictly ordered by the ranking,
and every scanned identifier left out ranks below every returned one; in
particular, two object lines with tool-A and one with tool-B give
get_top_tools(1) = [tool-A], also with a decode-error line injected. -/
theorem C3_get_top_tools_ranking (n : Nat) :
    UsageMetrics.get_top_tools none n = Except.ok [] ∧
    (∀ pre post : List UsageMetrics.JsonLine,
      UsageMetrics.get_top_tools
          (some (pre ++ UsageMetrics.JsonLine.decodeError :: post)) n
        = UsageMetrics.get_top_tools (some (pre ++ post)) n) ∧
    (∀ lines : List UsageMetrics.JsonLine,
      (UsageMetrics.JsonLine.nonObject ∈ lines ∨
        UsageMetrics.JsonLine.objBadTools ∈ lines) →
      UsageMetrics.get_top_tools (some lines) n = Except.error ()) ∧
    (∀ lines : List UsageMetrics.JsonLine,
      UsageMetrics.JsonLine.nonObject ∉ lines →
      UsageMetrics.JsonLine.objBadTools ∉ lines →
      ∃ res, UsageMetrics.get_top_tools (some lines) n = Except.ok res ∧
        res.length =
          min n (UsageMetrics.firstOccur (UsageMetrics.allTools lines)).length ∧
        (∀ x ∈ res, x ∈ UsageMetrics.firstOccur (UsageMetrics.allTools lines)) ∧
        res.Pairwise (fun a b =>
          (UsageMetrics.allTools lines).count b
              < (UsageMetrics.allTools lines).count a
          ∨ ((UsageMetrics.allTools lines).count a
                = (UsageMetrics.allTools lines).count b
              ∧ (UsageMetrics.firstOccur (UsageMetrics.allTools lines)).indexOf a
                  < (UsageMetrics.firstOccur
                      (UsageMetrics.allTools lines)).indexOf b)) ∧
        (∀ y ∈ UsageMetrics.firstOccur (UsageMetrics.allTools lines),
          y ∉ res → ∀ x ∈ res,
          (UsageMetrics.allTools lines).count y
              < (UsageMetrics.allTools lines).count x
          ∨ ((UsageMetrics.allTools lines).count x
                = (UsageMetrics.allTools lines).count y
              ∧ (UsageMetrics.firstOccur (UsageMetrics.allTools lines)).indexOf x
                  < (UsageMetrics.firstOccur
                      (UsageMetrics.allTools lines)).indexOf y))) ∧
    UsageMetrics.get_top_tools
        (some [UsageMetrics.JsonLine.objTools ["tool-A"],
          UsageMetrics.JsonLine.objTools ["tool-A"],
          UsageMetrics.JsonLine.objTools ["tool-B"]]) 1
      = Except.ok ["tool-A"] ∧
    UsageMetrics.get_top_tools
        (some [UsageMetrics.JsonLine.objTools ["tool-A"],
          UsageMetrics.JsonLine.decodeError,
          UsageMetrics.JsonLine.objTools ["tool-A"],
          UsageMetrics.JsonLine.objTools ["tool-B"]]) 1
      = Except.ok ["tool-A"] := by
  refine ⟨rfl, ?_, ?_, ?_, rfl, rfl⟩
  · intro pre post
    simp only [UsageMetrics.get_top_tools]
    rw [UsageMetrics.countLines_append_skip pre post []]
  · intro lines hbad
    simp only [UsageMetrics.get_top_tools]
    rw [UsageMetrics.countLines_err lines [] hbad]
    rfl
  · intro lines hno hnb
    set L := UsageMetrics.allTools lines with hL
    have hinv : UsageMetrics.CounterInv L (UsageMetrics.bumpList L []) := by
      have h0 := @UsageMetrics.counterInv_bumpList L [] []
        UsageMetrics.counterInv_nil
      simpa using h0
    obtain ⟨hkeys, hcount⟩ := hinv
    have hndk : ((UsageMetrics.bumpList L []).map Prod.fst).Nodup := by
      rw [hkeys]
      exact UsageMetrics.firstOccur_nodup L
    have hcpw : (UsageMetrics.bumpList L []).Pairwise (fun a b =>
        (UsageMetrics.firstOccur L).indexOf a.1
          < (UsageMetrics.firstOccur L).indexOf b.1) := by
      have h1 := UsageMetrics.nodup_pairwise_indexOf
        (UsageMetrics.firstOccur_nodup L)
      have h2 : List.Pairwise (fun a b =>
          (UsageMetrics.firstOccur L).indexOf a
            < (UsageMetrics.firstOccur L).indexOf b)
          ((UsageMetrics.bumpList L []).map Prod.fst) := by
        rw [hkeys]
        exact h1
      have hiff :
          ((UsageMetrics.bumpList L []).map Prod.fst).Pairwise (fun a b =>
            (UsageMetrics.firstOccur L).indexOf a
              < (UsageMetrics.firstOccur L).indexOf b)
          ↔ (UsageMetrics.bumpList L []).Pairwise (fun a b =>
            (UsageMetrics.firstOccur L).indexOf a.1
              < (UsageMetrics.firstOccur L).indexOf b.1) :=
        List.pairwise_map
      exact hiff.1 h2
    have hsorted := UsageMetrics.sortFold_pairwise
      (fun k => (UsageMetrics.firstOccur L).indexOf k) List.Pairwise.nil
      (by intro y hy z hz; simp at hy) hcpw
    have hcnt : ∀ kc ∈ UsageMetrics.sortDesc (UsageMetrics.bumpList L []),
        kc.2 = L.count kc.1 := by
      intro kc hkc
      have hkcc : kc ∈ UsageMetrics.bumpList L [] := by
        have hm := UsageMetrics.mem_sortFold.1 hkc
        simpa using hm
      have hl : lookupKey kc.1 (UsageMetrics.bumpList L []) = some kc.2 :=
        UsageMetrics.lookupKey_of_mem_nodup hndk hkcc
      have hc2 := hcount kc.1
      rw [hl] at hc2
      simpa using hc2
    have hpw2 : (UsageMetrics.sortDesc (UsageMetrics.bumpList L [])).Pairwise
        (fun a b => L.count b.1 < L.count a.1 ∨
          (L.count a.1 = L.count b.1 ∧
            (UsageMetrics.firstOccur L).indexOf a.1
              < (UsageMetrics.firstOccur L).indexOf b.1)) := by
      apply List.Pairwise.imp_of_mem ?_ hsorted
      intro a b ha hb hr
      rcases hr with h | ⟨he, hi⟩
      · left
        rw [← hcnt a ha, ← hcnt b hb]
        exact h
      · right
        refine ⟨?_, hi⟩
        rw [← hcnt a ha, ← hcnt b hb]
        exact he
    refine ⟨(UsageMetrics.most_common n (UsageMetrics.bumpList L [])).map
      Prod.fst, ?_, ?_, ?_, ?_, ?_⟩
    · simp only [UsageMetrics.get_top_tools]
      rw [UsageMetrics.countLines_ok lines [] hno hnb]
      rfl
    · unfold UsageMetrics.most_common
      rw [List.length_map, List.length_take, UsageMetrics.length_sortDesc]
      have hlen : (UsageMetrics.bumpList L []).length
          = (UsageMetrics.firstOccur L).length := by
        rw [← hkeys, List.length_map]
      rw [hlen]
    · intro x hx
      obtain ⟨q, hq, hqfst⟩ := List.mem_map.1 hx
      have hq2 : q ∈ (UsageMetrics.sortDesc
          (UsageMetrics.bumpList L [])).take n := hq
      have hq3 : q ∈ UsageMetrics.sortDesc (UsageMetrics.bumpList L []) :=
        List.take_subset _ _ hq2
      have hqc : q ∈ UsageMetrics.bumpList L [] := by
        have hm := UsageMetrics.mem_sortFold.1 hq3
        simpa using hm
      rw [← hqfst, ← hkeys]
      exact List.mem_map_of_mem Prod.fst hqc
    · unfold UsageMetrics.most_common
      rw [List.pairwise_map]
      exact List.Pairwise.sublist (List.take_sublist _ _) hpw2
    · intro y hy hynres x hx
      have hy2 : y ∈ (UsageMetrics.bumpList L []).map Prod.fst := by
        rw [hkeys]
        exact hy
      obtain ⟨p, hpmem, hpfst⟩ := List.mem_map.1 hy2
      have hps : p ∈ UsageMetrics.sortDesc (UsageMetrics.bumpList L []) :=
        UsageMetrics.mem_sortFold.2 (Or.inr hpmem)
      have hpnt : p ∉ (UsageMetrics.sortDesc
          (UsageMetrics.bumpList L [])).take n := by
        intro hc
        apply hynres
        rw [← hpfst]
        exact List.mem_map_of_mem Prod.fst hc
      have hpd : p ∈ (UsageMetrics.sortDesc
          (UsageMetrics.bumpList L [])).drop n := by
        have hsplit := List.take_append_drop n
          (UsageMetrics.sortDesc (UsageMetrics.bumpList L []))
        rw [← hsplit] at hps
        rcases List.mem_append.1 hps with h | h
        · exact absurd h hpnt
        · exact h
      obtain ⟨q, hq, hqfst⟩ := List.mem_map.1 hx
      have hq2 : q ∈ (UsageMetrics.sortDesc
          (UsageMetrics.bumpList L [])).take n := hq
      have hpw3 := hpw2
      rw [← List.take_append_drop n
        (UsageMetrics.sortDesc (UsageMetrics.bumpList L []))] at hpw3
      have hcross := (List.pairwise_append.1 hpw3).2.2 q hq2 p hpd
      rw [hqfst, hpfst] at hcross
      exact hcross

/-- Witness for C3: a three-line log counting tool-A twice and tool-B once,
queried for the top two tools, so the ranking order is non-trivial. -/
theorem C3_get_top_tools_ranking_witness :
    ∃ res, UsageMetrics.get_top_tools
        (some [UsageMetrics.JsonLine.objTools ["tool-A"],
          UsageMetrics.JsonLine.objTools ["tool-A"],
          UsageMetrics.JsonLine.objTools ["tool-B"]]) 2 = Except.ok res ∧
      res.length = min 2 (UsageMetrics.firstOccur (UsageMetrics.allTools
        [UsageMetrics.JsonLine.objTools ["tool-A"],
          UsageMetrics.JsonLine.objTools ["tool-A"],
          UsageMetrics.JsonLine.objTools ["tool-B"]])).length ∧
      (∀ x ∈ res, x ∈ UsageMetrics.firstOccur (UsageMetrics.allTools
        [UsageMetrics.JsonLine.objTools ["tool-A"],
          UsageMetrics.JsonLine.objTools ["tool-A"],
          UsageMetrics.JsonLine.objTools ["tool-B"]])) ∧
      res.Pairwise (fun a b =>
        (UsageMetrics.allTools
            [UsageMetrics.JsonLine.objTools ["tool-A"],
              UsageMetrics.JsonLine.objTools ["tool-A"],
              UsageMetrics.JsonLine.objTools ["tool-B"]]).count b
            < (UsageMetrics.allTools
                [UsageMetrics.JsonLine.objTools ["tool-A"],
                  UsageMetrics.JsonLine.objTools ["tool-A"],
                  UsageMetrics.JsonLine.objTools ["tool-B"]]).count a
        ∨ ((UsageMetrics.allTools
              [UsageMetrics.JsonLine.objTools ["tool-A"],
                UsageMetrics.JsonLine.objTools ["tool-A"],
                UsageMetrics.JsonLine.objTools ["tool-B"]]).count a
              = (UsageMetrics.allTools
                  [UsageMetrics.JsonLine.objTools ["tool-A"],
                    UsageMetrics.JsonLine.objTools ["tool-A"],
                    UsageMetrics.JsonLine.objTools ["tool-B"]]).count b
            ∧ (UsageMetrics.firstOccur (UsageMetrics.allTools
                [UsageMetrics.JsonLine.objTools ["tool-A"],
                  UsageMetrics.JsonLine.objTools ["tool-A"],
                  UsageMetrics.JsonLine.objTools ["tool-B"]])).indexOf a
                < (UsageMetrics.firstOccur (UsageMetrics.allTools
                    [UsageMetrics.JsonLine.objTools ["tool-A"],
                      UsageMetrics.JsonLine.objTools ["tool-A"],
                      UsageMetrics.JsonLine.objTools ["tool-B"]])).indexOf b)) ∧
      (∀ y ∈ UsageMetrics.firstOccur (UsageMetrics.allTools
          [UsageMetrics.JsonLine.objTools ["tool-A"],
            UsageMetrics.JsonLine.objTools ["tool-A"],
            UsageMetrics.JsonLine.objTools ["tool-B"]]),
        y ∉ res → ∀ x ∈ res,
        (UsageMetrics.allTools
            [UsageMetrics.JsonLine.objTools ["tool-A"],
              UsageMetrics.JsonLine.objTools ["tool-A"],
              UsageMetrics.JsonLine.objTools ["tool-B"]]).count y
            < (UsageMetrics.allTools
                [UsageMetrics.JsonLine.objTools ["tool-A"],
                  UsageMetrics.JsonLine.objTools ["tool-A"],
                  UsageMetrics.JsonLine.objTools ["tool-B"]]).count x
        ∨ ((UsageMetrics.allTools
              [UsageMetrics.JsonLine.objTools ["tool-A"],
                UsageMetrics.JsonLine.objTools ["tool-A"],
                UsageMetrics.JsonLine.objTools ["tool-B"]]).count x
              = (UsageMetrics.allTools
                  [UsageMetrics.JsonLine.objTools ["tool-A"],
                    UsageMetrics.JsonLine.objTools ["tool-A"],
                    UsageMetrics.JsonLine.objTools ["tool-B"]]).count y
            ∧ (UsageMetrics.firstOccur (UsageMetrics.allTools
                [UsageMetrics.JsonLine.objTools ["tool-A"],
                  UsageMetrics.JsonLine.objTools ["tool-A"],
                  UsageMetrics.JsonLine.objTools ["tool-B"]])).indexOf x
                < (UsageMetrics.firstOccur (UsageMetrics.allTools
                    [UsageMetrics.JsonLine.objTools ["tool-A"],
                      UsageMetrics.JsonLine.objTools ["tool-A"],
                      UsageMetrics.JsonLine.objTools ["tool-B"]])).indexOf y)) :=
  (C3_get_top_tools_ranking 2).2.2.2.1
    [UsageMetrics.JsonLine.objTools ["tool-A"],
      UsageMetrics.JsonLine.objTools ["tool-A"],
      UsageMetrics.JsonLine.objTools ["tool-B"]] (by decide) (by decide)

namespace SmartRouter

/-- One MCP tool invocation reported by the executor (providers/base.py). -/
structure McpResult where
  server_url : String
  tool_name : String
  is_error : Bool

/-- Provider-agnostic run result (providers/base.py RunResult). -/
structure RunResult where
  final_output : String
  messages : List ConversationHistory.Msg
  tools_called : List String
  mcp_results : List McpResult

/-- The mutable state of one SmartRouter instance: conversation history,
connection cache, health failure map, and the session set of the usage
ledger (insertion-ordered). -/
structure RouterState where
  history : List ConversationHistory.Msg
  cache : ToolCache.CacheState
  health : HealthTracker.HealthState
  ledger : List String

/-- The result loop of the discover_tools closure (src/router/core.py,
SmartRouter.handle_turn): for each hit, check health (which may lazily purge
a record), and if the url is healthy and not yet in the turn set, append it
to the turn set and add it to the connection cache.  A raise from add
propagates after the append, leaving prior mutations in place. -/
def discoverLoop (T : ℚ) (cap : Nat) (now : ℚ) :
    List ToolRegistry.SearchHit → HealthTracker.HealthState →
    ToolCache.CacheState → List String →
    Except Unit Unit × HealthTracker.HealthState × ToolCache.CacheState ×
      List String
  | [], h, c, nw => (Except.ok (), h, c, nw)
  | r :: rs, h, c, nw =>
      let hc := HealthTracker.is_healthy T now r.url h
      if hc.1 ∧ r.url ∉ nw then
        match ToolCache.add cap r.url c with
        | Except.error e => (Except.error e, hc.2, c, nw ++ [r.url])
        | Except.ok p => discoverLoop T cap now rs hc.2 p.1 (nw ++ [r.url])
      else
        discoverLoop T cap now rs hc.2 c nw

/-- The textual digest of found capabilities returned to the executor. -/
def buildFoundMessage (results : List ToolRegistry.SearchHit) : String :=
  "Found these capabilities:\n" ++
    String.intercalate "\n"
      (results.map (fun r => "- " ++ r.description ++ " (score: " ++
        toString r.score ++ ")"))

/-- Translation of the discover_tools closure (SmartRouter.handle_turn).
The registry search (with its embedding call) is its first statement and has
no exception handler around it: when it raises, the exception propagates to
the executor and the health map, connection cache and turn discovery set are
untouched.  On success the hits are processed and a found / no-match message
is returned. -/
def discoverTools (T : ℚ) (cap : Nat) (now : ℚ)
    (searchRes : Except Unit (List ToolRegistry.SearchHit))
    (health : HealthTracker.HealthState) (cache : ToolCache.CacheState)
    (newly : List String) :
    Except Unit String × HealthTracker.HealthState × ToolCache.CacheState ×
      List String :=
  match searchRes with
  | Except.error e => (Except.error e, health, cache, newly)
  | Except.ok results =>
      match discoverLoop T cap now results health cache newly with
      | (Except.error e, h2, c2, nw2) => (Except.error e, h2, c2, nw2)
      | (Except.ok _, h2, c2, nw2) =>
          if results.isEmpty then
            (Except.ok "No matching tools found for those queries.",
              h2, c2, nw2)
          else
            (Except.ok (buildFoundMessage results), h2, c2, nw2)

/-- The discovery calls the external executor makes during one run, each a
list of natural-language queries handed to discover_tools, followed by the
run outcome.  The executor itself is outside the embedded system. -/
structure RunScript where
  calls : List (List String)
  outcome : Except Unit RunResult

/-- Run the sequence of discover_tools invocations of one executor run.  An
exception from a discovery call propagates and fails the run. -/
def runCalls (T : ℚ) (cap : Nat) (now : ℚ)
    (search : List String → Except Unit (List ToolRegistry.SearchHit)) :
    List (List String) → HealthTracker.HealthState → ToolCache.CacheState →
    List String →
    Except Unit Unit × HealthTracker.HealthState × ToolCache.CacheState ×
      List String
  | [], h, c, nw => (Except.ok (), h, c, nw)
  | qs :: rest, h, c, nw =>
      match discoverTools T cap now (search qs) h c nw with
      | (Except.error e, h2, c2, nw2) => (Except.error e, h2, c2, nw2)
      | (Except.ok _, h2, c2, nw2) => runCalls T cap now search rest h2 c2 nw2

/-- Translation of UsageMetrics.record_tool_use: the session set is a set
(idempotent add), modelled as an insertion-ordered duplicate-free list. -/
def recordToolUse (url : String) (ledger : List String) : List String :=
  if url ∈ ledger then ledger else ledger ++ [url]

/-- Translation of SmartRouter._post_run: per reported tool invocation, an
erroring server is marked unhealthy and evicted, a successful one is touched
in the cache and recorded in the ledger; then the history is replaced by the
run's canonical transcript and trimmed. -/
def postRun (now : ℚ) (maxTurns : Nat) (result : RunResult)
    (st : RouterState) : RouterState :=
  let step := result.mcp_results.foldl
    (fun (acc : HealthTracker.HealthState × ToolCache.CacheState ×
        List String) mr =>
      if mr.is_error then
        (HealthTracker.mark_unhealthy now mr.server_url acc.1,
         ToolCache.evict mr.server_url acc.2.1, acc.2.2)
      else
        (acc.1, ToolCache.touch mr.server_url acc.2.1,
         recordToolUse mr.server_url acc.2.2))
    (st.health, st.cache, st.ledger)
  { history := ConversationHistory.update maxTurns result.messages,
    cache := step.2.1, health := step.1, ledger := step.2.2 }

/-- Translation of SmartRouter._build_instructions; the static template text
around the cache-status line is abbreviated, as nothing reads it back. -/
def build_instructions (active : List String) : String :=
  let status :=
    if active.isEmpty then "You have no tool servers connected yet."
    else "You currently have these tool servers connected: " ++
      String.intercalate ", " active ++ "."
  "You are a helpful assistant with access to external tool servers.\n\n" ++
    status

/-- Translation of SmartRouter.handle_turn.  The user message is appended to
the stored history first; the healthy subset of the cache is computed (with
lazy purges applied to the health map); the primary run executes its
discovery calls and then its outcome; if the turn discovery set is nonempty
the executor is re-invoked from the original message sequence with the
recomputed active set; post-run bookkeeping runs only for a successful final
run.  A propagated failure aborts the turn, keeping every mutation already
performed (Python mutates the sub-systems in place). -/
def handleTurn (T : ℚ) (cap maxTurns : Nat) (now : ℚ) (st : RouterState)
    (input : String)
    (search : List String → Except Unit (List ToolRegistry.SearchHit))
    (primary expanded : RunScript) :
    Except Unit String × RouterState :=
  let history1 := ConversationHistory.append_user input st.history
  let fh := HealthTracker.filter_healthy T now (ToolCache.get_urls st.cache)
    st.health
  let _instructions := build_instructions fh.1
  match runCalls T cap now search primary.calls fh.2 st.cache [] with
  | (Except.error e, h2, c2, _) =>
      (Except.error e,
        { history := history1, cache := c2, health := h2,
          ledger := st.ledger })
  | (Except.ok _, h2, c2, nw) =>
      match primary.outcome with
      | Except.error e =>
          (Except.error e,
            { history := history1, cache := c2, health := h2,
              ledger := st.ledger })
      | Except.ok result =>
          if nw = [] then
            (Except.ok result.final_output,
              postRun now maxTurns result
                { history := history1, cache := c2, health := h2,
                  ledger := st.ledger })
          else
            let fh2 := HealthTracker.filter_healthy T now
              (ToolCache.get_urls c2) h2
            let _instructions2 := build_instructions fh2.1
            match runCalls T cap now search expanded.calls fh2.2 c2 nw with
            | (Except.error e, h3, c3, _) =>
                (Except.error e,
                  { history := history1, cache := c3, health := h3,
                    ledger := st.ledger })
            | (Except.ok _, h3, c3, _) =>
                match expanded.outcome with
                | Except.error e =>
                    (Except.error e,
                      { history := history1, cache := c3, health := h3,
                        ledger := st.ledger })
                | Except.ok result2 =>
                    (Except.ok result2.final_output,
                      postRun now maxTurns result2
                        { history := history1, cache := c3, health := h3,
                          ledger := st.ledger })

end SmartRouter

/-- C2 counterexample: with a raising search and the turn discovery set
holding an identifier, discover_tools neither returns the "no tools found"
message nor clears the set — the exception propagates and the set keeps its
entry, contradicting the claimed catch-clear-and-report behaviour. -/
theorem C2_discovery_failure_counterexample :
    SmartRouter.discoverTools 300 10 0 (Except.error ()) [] ["c"] ["a"]
      = (Except.error (), [], ["c"], ["a"]) := rfl

/-- C2 amended: the discovery capability has no exception handler: when the
embedding/search call raises, the exception propagates out of discover_tools
to the executor, and the health map, the connection cache and the turn-local
discovery set are left exactly as they were — the set is not cleared and no
"no tools found" message is produced.  (Whether the turn then aborts is up
to the external executor; in this embedding a failed discovery call fails
the enclosing run.) -/
theorem C2_discovery_failure_propagates (T : ℚ) (cap : Nat) (now : ℚ)
    (e : Unit) (health : HealthTracker.HealthState)
    (cache : ToolCache.CacheState) (newly : List String) :
    SmartRouter.discoverTools T cap now (Except.error e) health cache newly
      = (Except.error e, health, cache, newly) := rfl

/-- C1 counterexample: from an empty pre-turn history, a turn whose primary
executor run raises leaves the stored Conversation History holding the
appended user message — not equal to its pre-turn snapshot. -/
theorem C1_history_not_rolled_back_counterexample :
    (SmartRouter.handleTurn 300 10 20 0
        { history := [], cache := [], health := [], ledger := [] } "hi"
        (fun _ => Except.ok [])
        { calls := [], outcome := Except.error () }
        { calls := [],
          outcome := Except.ok
            { final_output := "", messages := [], tools_called := [],
              mcp_results := [] } }).1 = Except.error () ∧
    (SmartRouter.handleTurn 300 10 20 0
        { history := [], cache := [], health := [], ledger := [] } "hi"
        (fun _ => Except.ok [])
        { calls := [], outcome := Except.error () }
        { calls := [],
          outcome := Except.ok
            { final_output := "", messages := [], tools_called := [],
              mcp_results := [] } }).2.history
      = [{ role := "user", content := "hi" }] ∧
    ([{ role := "user", content := "hi" }] : List ConversationHistory.Msg)
      ≠ [] := by
  refine ⟨rfl, rfl, by decide⟩

/-- C1 amended: when the primary or expanded executor run raises (or a
discovery call propagates a failure), the turn aborts with that error and
the Usage Ledger is left in its pre-turn state; the Connection Cache is left
in its pre-turn state when no discovery call was made, while discovery-made
cache mutations persist; the Conversation History is NOT rolled back to the
pre-turn snapshot: it equals the pre-turn history with the new user message
appended. -/
theorem C1_failed_turn_state (T : ℚ) (cap maxTurns : Nat) (now : ℚ)
    (st : SmartRouter.RouterState) (input : String)
    (search : List String → Except Unit (List ToolRegistry.SearchHit))
    (primary expanded : SmartRouter.RunScript)
    (hfail : (SmartRouter.handleTurn T cap maxTurns now st input search
      primary expanded).1 = Except.error ()) :
    (SmartRouter.handleTurn T cap maxTurns now st input search primary
        expanded).2.ledger = st.ledger ∧
    (SmartRouter.handleTurn T cap maxTurns now st input search primary
        expanded).2.history
      = st.history ++ [{ role := "user", content := input }] ∧
    (primary.calls = [] →
      (SmartRouter.handleTurn T cap maxTurns now st input search primary
        expanded).2.cache = st.cache) := by
  rcases hrc1 : SmartRouter.runCalls T cap now search primary.calls
      (HealthTracker.filter_healthy T now (ToolCache.get_urls st.cache)
        st.health).2 st.cache [] with ⟨d1, h2, c2, nw⟩
  cases d1 with
  | error e =>
      have heq : SmartRouter.handleTurn T cap maxTurns now st input search
          primary expanded = (Except.error e,
            { history := ConversationHistory.append_user input st.history,
              cache := c2, health := h2, ledger := st.ledger }) := by
        simp only [SmartRouter.handleTurn, hrc1]
      rw [heq]
      refine ⟨rfl, rfl, ?_⟩
      intro hcalls
      rw [hcalls] at hrc1
      simp only [SmartRouter.runCalls] at hrc1
      injection hrc1 with ha hb
      injection hb with hb1 hb2
      injection hb2 with hb2a hb2b
      exact hb2a.symm
  | ok u =>
      cases hpo : primary.outcome with
      | error e =>
          have heq : SmartRouter.handleTurn T cap maxTurns now st input search
              primary expanded = (Except.error e,
                { history := ConversationHistory.append_user input st.history,
                  cache := c2, health := h2, ledger := st.ledger }) := by
            simp only [SmartRouter.handleTurn, hrc1, hpo]
          rw [heq]
          refine ⟨rfl, rfl, ?_⟩
          intro hcalls
          rw [hcalls] at hrc1
          simp only [SmartRouter.runCalls] at hrc1
          injection hrc1 with ha hb
          injection hb with hb1 hb2
          injection hb2 with hb2a hb2b
          exact hb2a.symm
      | ok result =>
          by_cases hnw : nw = []
          · have heq : (SmartRouter.handleTurn T cap maxTurns now st input
                search primary expanded).1
                = Except.ok result.final_output := by
              simp only [SmartRouter.handleTurn, hrc1, hpo, hnw, if_pos]
            rw [heq] at hfail
            exact Except.noConfusion hfail
          · rcases hrc2 : SmartRouter.runCalls T cap now search expanded.calls
                (HealthTracker.filter_healthy T now (ToolCache.get_urls c2)
                  h2).2 c2 nw with ⟨d2, h3, c3, nw2⟩
            have hcvac : primary.calls = [] → False := by
              intro hcalls
              rw [hcalls] at hrc1
              simp only [SmartRouter.runCalls] at hrc1
              injection hrc1 with ha hb
              injection hb with hb1 hb2
              injection hb2 with hb2a hb2b
              exact hnw hb2b.symm
            cases d2 with
            | error e =>
                have heq : SmartRouter.handleTurn T cap maxTurns now st input
                    search primary expanded = (Except.error e,
                      { history :=
                          ConversationHistory.append_user input st.history,
                        cache := c3, health := h3,
                        ledger := st.ledger }) := by
                  simp only [SmartRouter.handleTurn, hrc1, hpo, if_neg hnw,
                    hrc2]
                rw [heq]
                exact ⟨rfl, rfl, fun hcalls => absurd (hcvac hcalls) id⟩
            | ok u2 =>
                cases heo : expanded.outcome with
                | error e =>
                    have heq : SmartRouter.handleTurn T cap maxTurns now st
                        input search primary expanded = (Except.error e,
                          { history :=
                              ConversationHistory.append_user input st.history,
                            cache := c3, health := h3,
                            ledger := st.ledger }) := by
                      simp only [SmartRouter.handleTurn, hrc1, hpo,
                        if_neg hnw, hrc2, heo]
                    rw [heq]
                    exact ⟨rfl, rfl, fun hcalls => absurd (hcvac hcalls) id⟩
                | ok result2 =>
                    have heq : (SmartRouter.handleTurn T cap maxTurns now st
                        input search primary expanded).1
                        = Except.ok result2.final_output := by
                      simp only [SmartRouter.handleTurn, hrc1, hpo,
                        if_neg hnw, hrc2, heo]
                    rw [heq] at hfail
                    exact Except.noConfusion hfail

/-- Witness for C1 on a concrete failing turn from the empty state. -/
theorem C1_failed_turn_state_witness :
    (SmartRouter.handleTurn 300 10 20 0
        { history := [], cache := [], health := [], ledger := [] } "hi"
        (fun _ => Except.ok [])
        { calls := [], outcome := Except.error () }
        { calls := [],
          outcome := Except.ok
            { final_output := "", messages := [], tools_called := [],
              mcp_results := [] } }).2.ledger = [] ∧
    (SmartRouter.handleTurn 300 10 20 0
        { history := [], cache := [], health := [], ledger := [] } "hi"
        (fun _ => Except.ok [])
        { calls := [], outcome := Except.error () }
        { calls := [],
          outcome := Except.ok
            { final_output := "", messages := [], tools_called := [],
              mcp_results := [] } }).2.history
      = [] ++ [{ role := "user", content := "hi" }] ∧
    (SmartRouter.handleTurn 300 10 20 0
        { history := [], cache := [], health := [], ledger := [] } "hi"
        (fun _ => Except.ok [])
        { calls := [], outcome := Except.error () }
        { calls := [],
          outcome := Except.ok
            { final_output := "", messages := [], tools_called := [],
              mcp_results := [] } }).2.cache = [] := by
  have h := C1_failed_turn_state 300 10 20 0
    { history := [], cache := [], health := [], ledger := [] } "hi"
    (fun _ => Except.ok [])
    { calls := [], outcome := Except.error () }
    { calls := [],
      outcome := Except.ok
        { final_output := "", messages := [], tools_called := [],
          mcp_results := [] } } (by rfl)
  exact ⟨h.1, h.2.1, h.2.2 rfl⟩
